import Mathlib

/-! # verbal-code: ring buffer, decision policy and orchestrator

A shallow embedding of the core of the `verbal` dictation pipeline:

* `RingBuffer` (`src/core/ring_buffer.hpp`): the single-producer / single-consumer
  transport buffer, in its sequential semantics;
* `levenshtein` and `edit_distance_ratio`
  (`src/recognition/transcription_orchestrator.cpp`);
* `TranscriptionOrchestrator`, the parts of `VoskRecognitionService` and
  `WhisperRefinementService` it drives, and the `Application` handlers around it.

`size_t` values are natural numbers below `SIZE_MOD = 2 ^ 64`; every `size_t`
addition and subtraction of the source that can wrap is written with `size_add`
and `size_sub`.
-/

namespace verbal

/-! ## `size_t` arithmetic -/

/-- Modulus of `size_t` arithmetic (64-bit target). -/
def SIZE_MOD : Nat := 2 ^ 64

/-- Wrapping `size_t` addition. -/
def size_add (a b : Nat) : Nat := (a + b) % SIZE_MOD

/-- Wrapping `size_t` subtraction (for operands below `SIZE_MOD`). -/
def size_sub (a b : Nat) : Nat := (a + SIZE_MOD - b) % SIZE_MOD

/-! ## `RingBuffer<T>` (`src/core/ring_buffer.hpp`) -/

/-- The members of `RingBuffer<T>`: `buffer_` is the storage array (of `capacity_`
slots), the two position counters are free-running `size_t` values. -/
structure RingBuffer (T : Type) where
  capacity_ : Nat
  buffer_ : List T
  read_pos_ : Nat
  write_pos_ : Nat

/-- The call `std::memcpy(&dst[off], src, n * sizeof(T))`: slots `off .. off + n - 1`
of `dst` receive the first `n` items of `src`; the other slots are kept. -/
def memcpy {T : Type} (dst : List T) (off : Nat) (src : List T) (n : Nat) : List T :=
  dst.take off ++ src.take n ++ dst.drop (off + n)

namespace RingBuffer

variable {T : Type}

/-- The constructor `RingBuffer(size_t capacity)`: `make_unique<T[]>(capacity)`
value-initialises the storage; both positions start at 0. -/
def new [Inhabited T] (capacity : Nat) : RingBuffer T :=
  { capacity_ := capacity
    buffer_ := List.replicate capacity default
    read_pos_ := 0
    write_pos_ := 0 }

/-- The private overload `available_write(wp, rp)`: `capacity_ - (wp - rp)`. -/
def available_write_at (rb : RingBuffer T) (wp rp : Nat) : Nat :=
  size_sub rb.capacity_ (size_sub wp rp)

/-- The method `available_read()`: `wp - rp`. -/
def available_read (rb : RingBuffer T) : Nat :=
  size_sub rb.write_pos_ rb.read_pos_

/-- The method `available_write()`. -/
def available_write (rb : RingBuffer T) : Nat :=
  rb.available_write_at rb.write_pos_ rb.read_pos_

/-- The method `capacity()`. -/
def capacity (rb : RingBuffer T) : Nat := rb.capacity_

/-- The method `write(data, count)`, with `count = data.length`: returns the new
state and the number of items written. (`wp % capacity_` is evaluated only when
`to_write` is not 0.) -/
def write (rb : RingBuffer T) (data : List T) : RingBuffer T × Nat :=
  let count := data.length
  let wp := rb.write_pos_
  let rp := rb.read_pos_
  let available := rb.available_write_at wp rp
  let to_write := if count ≤ available then count else available
  if to_write = 0 then (rb, 0)
  else
    let first := size_sub rb.capacity_ (wp % rb.capacity_)
    let buffer :=
      if to_write ≤ first then
        memcpy rb.buffer_ (wp % rb.capacity_) data to_write
      else
        memcpy (memcpy rb.buffer_ (wp % rb.capacity_) data first) 0
          (data.drop first) (size_sub to_write first)
    ({ rb with buffer_ := buffer, write_pos_ := size_add wp to_write }, to_write)

/-- The copy made by `read` and `peek` into the caller's array: `to_read` items
starting at slot `rp % capacity_`, wrapping to slot 0. -/
def copy_out (rb : RingBuffer T) (rp to_read : Nat) : List T :=
  let first := size_sub rb.capacity_ (rp % rb.capacity_)
  if to_read ≤ first then
    (rb.buffer_.drop (rp % rb.capacity_)).take to_read
  else
    (rb.buffer_.drop (rp % rb.capacity_)).take first
      ++ rb.buffer_.take (size_sub to_read first)

/-- The method `read(data, count)`: returns the new state, the number of items
read and the items copied to `data[0 .. to_read)`. -/
def read (rb : RingBuffer T) (count : Nat) : RingBuffer T × Nat × List T :=
  let rp := rb.read_pos_
  let wp := rb.write_pos_
  let available := size_sub wp rp
  let to_read := if count ≤ available then count else available
  if to_read = 0 then (rb, 0, [])
  else ({ rb with read_pos_ := size_add rp to_read }, to_read, rb.copy_out rp to_read)

/-- The method `peek(data, count)`: as `read`, without the store to `read_pos_`. -/
def peek (rb : RingBuffer T) (count : Nat) : Nat × List T :=
  let rp := rb.read_pos_
  let wp := rb.write_pos_
  let available := size_sub wp rp
  let to_read := if count ≤ available then count else available
  if to_read = 0 then (0, [])
  else (to_read, rb.copy_out rp to_read)

/-- The method `reset()`. -/
def reset (rb : RingBuffer T) : RingBuffer T :=
  { rb with read_pos_ := 0, write_pos_ := 0 }

/-- Representation invariant of a ring buffer. -/
def WF (rb : RingBuffer T) : Prop :=
  rb.capacity_ < SIZE_MOD ∧ rb.buffer_.length = rb.capacity_ ∧
  rb.read_pos_ < SIZE_MOD ∧ rb.write_pos_ < SIZE_MOD ∧
  size_sub rb.write_pos_ rb.read_pos_ ≤ rb.capacity_

instance (rb : RingBuffer T) : Decidable rb.WF := by
  unfold WF
  infer_instance

/-- The unread samples, oldest first. -/
def contents (rb : RingBuffer T) : List T :=
  (rb.buffer_.rotate rb.read_pos_).take rb.available_read

/-- A call of the public interface that changes or reads the buffer. -/
inductive Call (T : Type) where
  | write (data : List T)
  | read (count : Nat)
  | peek (count : Nat)
  | reset

/-- The state after one call (`peek` is a `const` method). -/
def call (rb : RingBuffer T) : Call T → RingBuffer T
  | .write data => (rb.write data).1
  | .read count => (rb.read count).1
  | .peek _ => rb
  | .reset => rb.reset

/-- The state after a sequence of calls. -/
def calls (rb : RingBuffer T) (cs : List (Call T)) : RingBuffer T :=
  cs.foldl call rb

/-- No `write` of the sequence carries `write_pos_` past `SIZE_MOD`. -/
def no_wrap (rb : RingBuffer T) : List (Call T) → Bool
  | [] => true
  | .write data :: cs =>
      decide (rb.write_pos_ + (rb.write data).2 < SIZE_MOD) && no_wrap (rb.write data).1 cs
  | c :: cs => no_wrap (rb.call c) cs

/-- A producer/consumer session: the buffer with the log of the samples accepted by
the writes and of the samples returned by the reads. -/
structure Session (T : Type) where
  rb : RingBuffer T
  accepted : List T
  returned : List T

/-- A `write` or `read` call of a session. -/
inductive Transfer (T : Type) where
  | write (data : List T)
  | read (count : Nat)

namespace Session

/-- A session on a newly constructed buffer. -/
def start [Inhabited T] (capacity : Nat) : Session T :=
  { rb := RingBuffer.new capacity, accepted := [], returned := [] }

/-- One call: a `write` logs the first `written_count` samples of its data, a `read`
logs the samples it returns. -/
def step (s : Session T) : Transfer T → Session T
  | .write data =>
      { rb := (s.rb.write data).1
        accepted := s.accepted ++ data.take (s.rb.write data).2
        returned := s.returned }
  | .read count =>
      { rb := (s.rb.read count).1
        accepted := s.accepted
        returned := s.returned ++ (s.rb.read count).2.2 }

/-- A sequence of calls, in order. -/
def run (s : Session T) (ops : List (Transfer T)) : Session T :=
  ops.foldl step s

/-- Invariant of a session: while fewer than `SIZE_MOD` samples have been accepted,
the positions count the accepted and the returned samples, and the accepted samples
are the returned ones followed by the unread ones. -/
def Inv (s : Session T) : Prop :=
  s.rb.WF ∧ (s.accepted.length < SIZE_MOD →
    s.rb.write_pos_ = s.accepted.length ∧ s.rb.read_pos_ = s.returned.length ∧
    s.accepted = s.returned ++ s.rb.contents)

end Session

/-- One full round: the producer fills a buffer of capacity 4, the consumer drains it. -/
def full_round : List (Call Int) := [Call.write [0, 0, 0, 0], Call.read 4]

/-- `2 ^ 62 - 1` full rounds on a buffer of capacity 4, then one more write of four samples. -/
def wrap_calls : List (Call Int) :=
  (List.replicate (2 ^ 62 - 1) full_round).flatten ++ [Call.write [0, 0, 0, 0]]

/-- The calls of the test `RingBuffer.Wraparound` (capacity 4). -/
def wraparound_test : List (Transfer Int) :=
  [Transfer.write [1, 2, 3], Transfer.read 2, Transfer.write [4, 5, 6], Transfer.read 4]

/-- The full buffer of the test `RingBuffer.WriteFullBuffer`. -/
def full_buffer : RingBuffer Int := ((RingBuffer.new 4 : RingBuffer Int).write [1, 2, 3, 4]).1

end RingBuffer

/-! ## Decision policy (`src/recognition/transcription_orchestrator.cpp`) -/

/-- A `std::string`, as the sequence of its `char` values. -/
abbrev CppString := List Nat

/-- The body of the inner loop of `levenshtein` at column `j` of row `i`:
`curr[j] = std::min({prev[j] + 1, curr[j - 1] + 1, prev[j - 1] + cost})`. -/
def levenshtein_cell (a b : CppString) (prev : List Nat) (i : Nat) (curr : List Nat)
    (j : Nat) : List Nat :=
  let cost := if a.getD (i - 1) 0 = b.getD (j - 1) 0 then 0 else 1
  curr.set j
    (min (prev.getD j 0 + 1) (min (curr.getD (j - 1) 0 + 1) (prev.getD (j - 1) 0 + cost)))

/-- One iteration of the outer loop of `levenshtein` on the pair `(prev, curr)`:
`curr[0] = i`, the inner loop over `j = 1 .. n`, then `std::swap(prev, curr)`. -/
def levenshtein_row (a b : CppString) (rows : List Nat × List Nat) (i : Nat) :
    List Nat × List Nat :=
  let prev := rows.1
  let curr := (List.range' 1 b.length).foldl (levenshtein_cell a b prev i) (rows.2.set 0 i)
  (curr, prev)

/-- The function `levenshtein(a, b)`: the two-row dynamic programme. The cells never
exceed `a.size() + b.size()`, so the `size_t` additions do not wrap. -/
def levenshtein (a b : CppString) : Nat :=
  let m := a.length
  let n := b.length
  let prev := (List.range (n + 1)).foldl (fun p j => p.set j j) (List.replicate (n + 1) 0)
  let curr := List.replicate (n + 1) 0
  let rows := (List.range' 1 m).foldl (levenshtein_row a b) (prev, curr)
  rows.1.getD n 0

/-- The static method `edit_distance_ratio(a, b)`; the `double` quotient is taken
exactly, as a rational number. -/
def edit_distance_ratio (a b : CppString) : ℚ :=
  if a = [] ∧ b = [] then 0
  else
    let max_len := max a.length b.length
    let dist := levenshtein a b
    (dist : ℚ) / (max_len : ℚ)

/-- The Levenshtein distance by its standard recursive definition: the least number of
single-unit deletions, insertions and substitutions that turn `a` into `b`. -/
def lev {α : Type} [DecidableEq α] : List α → List α → Nat
  | [], b => b.length
  | a, [] => a.length
  | x :: a, y :: b =>
      min (lev a (y :: b) + 1) (min (lev (x :: a) b + 1) (lev a b + if x = y then 0 else 1))
termination_by a b => a.length + b.length

/-- The relation `Edits a b n`: `a` is turned into `b` by a left-to-right script with `n`
single-unit edits (substitutions, deletions, insertions); kept units are free. -/
inductive Edits {α : Type} : List α → List α → Nat → Prop where
  | done : Edits [] [] 0
  | keep (x : α) {a b : List α} {n : Nat} : Edits a b n → Edits (x :: a) (x :: b) n
  | substitute (x y : α) {a b : List α} {n : Nat} :
      Edits a b n → Edits (x :: a) (y :: b) (n + 1)
  | delete (x : α) {a b : List α} {n : Nat} : Edits a b n → Edits (x :: a) b (n + 1)
  | insert (y : α) {a b : List α} {n : Nat} : Edits a b n → Edits a (y :: b) (n + 1)

/-! ## Recognition services -/

/-- An audio sample (`int16_t`). -/
abbrev AudioSample := Int

/-- What the Vosk engine reports for one accepted chunk, after `extract_text`:
`utterance` when `vosk_recognizer_accept_waveform_s` returns a positive value (an
utterance boundary), `hypothesis` otherwise. -/
inductive EngineOutput where
  | utterance (text : CppString)
  | hypothesis (text : CppString)

/-- An invocation of one of the two text callbacks of `VoskRecognitionService`. -/
inductive TextEvent where
  | final_text (text : CppString)
  | partial_text (text : CppString)
  deriving DecidableEq

/-- The members of `VoskRecognitionService` that the orchestrator drives. The engine
handle `recognizer_` and the pointer `ring_buffer_` are kept as "is set" flags;
`recognizer_resets` counts the calls of `vosk_recognizer_reset`, `stream_threads` the
running streaming threads, and `on_partial_` / `on_final_` say whether the callback
is set. -/
structure VoskRecognitionService where
  recognizer_ : Bool
  recognizer_resets : Nat
  running_ : Bool
  ring_buffer_ : Bool
  streaming_ : Bool
  stream_threads : Nat
  last_partial_ : CppString
  on_partial_ : Bool
  on_final_ : Bool
  deriving DecidableEq

namespace VoskRecognitionService

/-- The method `reset()`. -/
def reset (v : VoskRecognitionService) : VoskRecognitionService :=
  { v with
    recognizer_resets := if v.recognizer_ then v.recognizer_resets + 1 else v.recognizer_resets
    last_partial_ := [] }

/-- The method `final_result()`; `engine_final` is the text that `extract_text` finds
in the answer of `vosk_recognizer_final_result`. -/
def final_result (v : VoskRecognitionService) (engine_final : CppString) : CppString :=
  if !v.recognizer_ then [] else engine_final

/-- The method `start_streaming()`. -/
def start_streaming (v : VoskRecognitionService) : VoskRecognitionService :=
  if !v.ring_buffer_ || v.streaming_ then v
  else { v with streaming_ := true, stream_threads := v.stream_threads + 1 }

/-- The method `stop_streaming()`: clears the flag and joins the thread. -/
def stop_streaming (v : VoskRecognitionService) : VoskRecognitionService :=
  { v with streaming_ := false, stream_threads := 0 }

/-- The method `process_chunk(data, count)` on the engine's answer for the chunk:
returns the new state and the callback invoked, if any. -/
def process_chunk (v : VoskRecognitionService) (out : EngineOutput) :
    VoskRecognitionService × Option TextEvent :=
  if !v.recognizer_ then (v, none)
  else
    match out with
    | .utterance text =>
        if text ≠ [] ∧ v.on_final_ then (v, some (.final_text text)) else (v, none)
    | .hypothesis text =>
        if text ≠ v.last_partial_ ∧ text ≠ [] then
          ({ v with last_partial_ := text },
            if v.on_partial_ then some (.partial_text text) else none)
        else (v, none)

end VoskRecognitionService

/-- The members of `WhisperRefinementService`: `ctx_` says whether the context is
loaded; `whisper_full` stands for the engine: from the audio it gives the return code
of `whisper_full` and the segment texts (`none` for a null pointer). -/
structure WhisperRefinementService where
  ctx_ : Bool
  whisper_full : List AudioSample → Int × List (Option CppString)

/-- The characters of `" \t\n\r"`. -/
def is_trim_char (c : Nat) : Bool := c = 32 || c = 9 || c = 10 || c = 13

/-- The loop of `refine` that joins the segment texts with single spaces. -/
def join_segments (segments : List (Option CppString)) : CppString :=
  segments.foldl
    (fun result segment =>
      match segment with
      | none => result
      | some text => (if result ≠ [] then result ++ [32] else result) ++ text)
    []

/-- The trimming at the end of `refine`: nothing is cut from a text that has only
trim characters (`find_first_not_of` gives `npos`). -/
def trim_result (result : CppString) : CppString :=
  match result.dropWhile is_trim_char with
  | [] => result
  | rest => (rest.reverse.dropWhile is_trim_char).reverse

namespace WhisperRefinementService

/-- The method `is_initialized()`. -/
def is_initialized (w : WhisperRefinementService) : Bool := w.ctx_

/-- The method `refine(audio)` in a build with `VERBAL_ENABLE_WHISPER`. -/
def refine (w : WhisperRefinementService) (audio : List AudioSample) :
    Except String CppString :=
  if !w.ctx_ then .error "Whisper not initialized"
  else if audio = [] then .ok []
  else
    let ret := (w.whisper_full audio).1
    if ret ≠ 0 then .error ("Whisper inference failed with code: " ++ toString ret)
    else .ok (trim_result (join_segments (w.whisper_full audio).2))

end WhisperRefinementService

/-! ## `TranscriptionOrchestrator` -/

/-- The nested struct `TranscriptionOrchestrator::Config`; the threshold is a `double`,
kept as a rational number. -/
structure Config where
  enable_whisper_refinement : Bool := true
  refinement_threshold : ℚ := 1 / 5

/-- The members of `TranscriptionOrchestrator`. `whisper_enabled` is the build flag
`VERBAL_ENABLE_WHISPER`; `whisper_` is `none` for a null pointer; `on_partial_` and
`on_refined_` say whether a subscriber is set. -/
structure TranscriptionOrchestrator where
  vosk_ : VoskRecognitionService
  whisper_enabled : Bool
  whisper_ : Option WhisperRefinementService
  config_ : Config
  on_partial_ : Bool
  on_refined_ : Bool
  vosk_text_ : CppString
  was_refined_ : Bool

/-- What a call of `on_recording_stop` does to its collaborators: the audio handed to
`whisper_->refine` and the argument pairs of the `on_refined_` invocations, in order. -/
structure StopEffects where
  refine_calls : List (List AudioSample)
  refined_calls : List (CppString × CppString)

namespace TranscriptionOrchestrator

/-- The method `vosk_result()`. -/
def vosk_result (o : TranscriptionOrchestrator) : CppString := o.vosk_text_

/-- The method `was_refined()`. -/
def was_refined (o : TranscriptionOrchestrator) : Bool := o.was_refined_

/-- The method `on_recording_start()`. -/
def on_recording_start (o : TranscriptionOrchestrator) : TranscriptionOrchestrator :=
  let vosk := o.vosk_.reset
  let vosk := { vosk with on_partial_ := true, on_final_ := true }
  { o with vosk_text_ := [], was_refined_ := false, vosk_ := vosk.start_streaming }

/-- The streaming thread processes one chunk: `process_chunk`, then the lambda that
`on_recording_start` has set for the event. Returns the texts passed to the
orchestrator's `on_partial_` subscriber. -/
def stream_chunk (o : TranscriptionOrchestrator) (out : EngineOutput) :
    TranscriptionOrchestrator × List CppString :=
  let r := o.vosk_.process_chunk out
  let o := { o with vosk_ := r.1 }
  match r.2 with
  | none => (o, [])
  | some (.final_text text) => ({ o with vosk_text_ := text }, [])
  | some (.partial_text text) => (o, if o.on_partial_ then [text] else [])

/-- The tail of `on_recording_stop` ("No refinement needed or available"). -/
def emit_fast (o : TranscriptionOrchestrator) (refine_calls : List (List AudioSample)) :
    TranscriptionOrchestrator × StopEffects :=
  ({ o with was_refined_ := false },
    { refine_calls := refine_calls
      refined_calls := if o.on_refined_ then [(o.vosk_text_, o.vosk_text_)] else [] })

/-- The head of `on_recording_stop`: the streaming loop is stopped and the engine's
final result, when non-empty, replaces the stored fast text. `engine_final` is the
engine's answer to `final_result()`. -/
def finalize_fast (o : TranscriptionOrchestrator) (engine_final : CppString) :
    TranscriptionOrchestrator :=
  let vosk := o.vosk_.stop_streaming
  let final_vosk := vosk.final_result engine_final
  { o with
    vosk_ := vosk
    vosk_text_ := if final_vosk ≠ [] then final_vosk else o.vosk_text_ }

/-- The method `on_recording_stop(audio)`. -/
def on_recording_stop (o : TranscriptionOrchestrator) (engine_final : CppString)
    (audio : List AudioSample) : TranscriptionOrchestrator × StopEffects :=
  let o := o.finalize_fast engine_final
  if o.whisper_enabled && o.config_.enable_whisper_refinement then
    match o.whisper_ with
    | some whisper =>
        if whisper.is_initialized && !audio.isEmpty then
          match whisper.refine audio with
          | .ok whisper_text =>
              let ratio := edit_distance_ratio o.vosk_text_ whisper_text
              if ratio ≥ o.config_.refinement_threshold ∧ whisper_text ≠ [] then
                ({ o with was_refined_ := true },
                  { refine_calls := [audio]
                    refined_calls :=
                      if o.on_refined_ then [(o.vosk_text_, whisper_text)] else [] })
              else o.emit_fast [audio]
          | .error _ => o.emit_fast [audio]
        else o.emit_fast []
    | none => o.emit_fast []
  else o.emit_fast []

/-- The refinement block of `on_recording_stop` is entered for `audio`, with the
engine `whisper`: the guard of the block holds. -/
def RefineAttempted (o : TranscriptionOrchestrator) (audio : List AudioSample)
    (whisper : WhisperRefinementService) : Prop :=
  o.whisper_enabled = true ∧ o.config_.enable_whisper_refinement = true ∧
  o.whisper_ = some whisper ∧ whisper.is_initialized = true ∧ audio ≠ []

/-- The refinement block of `on_recording_stop` is entered for `audio` and
`whisper_->refine(audio)` returns `ok(slow)`. -/
def RefineSucceeds (o : TranscriptionOrchestrator) (audio : List AudioSample)
    (slow : CppString) : Prop :=
  o.whisper_enabled = true ∧ o.config_.enable_whisper_refinement = true ∧
  ∃ whisper, o.whisper_ = some whisper ∧ whisper.is_initialized = true ∧ audio ≠ [] ∧
    whisper.refine audio = .ok slow

end TranscriptionOrchestrator

/-! ## `Application` (`src/app/application.cpp`) and its collaborators -/

/-- The enum `TranscriptionSource`. -/
inductive TranscriptionSource where
  | VOSK
  | WHISPER
  deriving DecidableEq

/-- The struct `TranscriptionEntry`. -/
structure TranscriptionEntry where
  timestamp : String
  text : CppString
  source : TranscriptionSource
  deriving DecidableEq

/-- The conversion `static_cast<int>(n)` of a `size_t` value `n` to the 32-bit `int`:
the value modulo `2 ^ 32`, read as a two's complement number. -/
def static_cast_int (n : Nat) : Int :=
  if n % 2 ^ 32 < 2 ^ 31 then ((n % 2 ^ 32 : Nat) : Int)
  else ((n % 2 ^ 32 : Nat) : Int) - 2 ^ 32

/-- The members `max_entries_` and `entries_` of `TranscriptionStore`. -/
structure TranscriptionStore where
  max_entries_ : Int
  entries_ : List TranscriptionEntry
  deriving DecidableEq

namespace TranscriptionStore

/-- The method `append(text, source)`; `now` is the value of `current_timestamp()`.
The size of the vector is compared, and the number of erased entries computed, after
`static_cast<int>`. -/
def append (s : TranscriptionStore) (now : String) (text : CppString)
    (source : TranscriptionSource) : TranscriptionStore :=
  let entries := s.entries_ ++ [{ timestamp := now, text := text, source := source }]
  if s.max_entries_ > 0 ∧ static_cast_int entries.length > s.max_entries_ then
    { s with entries_ := entries.drop (static_cast_int entries.length - s.max_entries_).toNat }
  else { s with entries_ := entries }

end TranscriptionStore

/-- The class `AudioBuffer` (`src/audio/audio_buffer.hpp`). -/
structure AudioBuffer where
  samples_ : List AudioSample
  deriving DecidableEq

namespace AudioBuffer

/-- The constructor `AudioBuffer(reserve_samples)`: `reserve` leaves the vector empty. -/
def new (_reserve_samples : Nat) : AudioBuffer := { samples_ := [] }

/-- The method `append(data, count)`, with `count = data.length`. -/
def append (b : AudioBuffer) (data : List AudioSample) : AudioBuffer :=
  { samples_ := b.samples_ ++ data }

/-- The method `clear()`. -/
def clear (_b : AudioBuffer) : AudioBuffer := { samples_ := [] }

/-- The method `get_samples()`. -/
def get_samples (b : AudioBuffer) : List AudioSample := b.samples_

/-- The method `size()`. -/
def size (b : AudioBuffer) : Nat := b.samples_.length

/-- The method `empty()`. -/
def empty (b : AudioBuffer) : Bool := b.samples_.isEmpty

end AudioBuffer

/-- The members of `PipeWireAudioService` used for capture control. -/
structure PipeWireAudioService where
  running_ : Bool
  capturing_ : Bool
  audio_buffer_ : AudioBuffer
  recorded_ : List AudioSample
  deriving DecidableEq

namespace PipeWireAudioService

/-- The method `start_capture()`: the new state and whether it returned `ok`. -/
def start_capture (s : PipeWireAudioService) : PipeWireAudioService × Bool :=
  if !s.running_ then (s, false)
  else ({ s with audio_buffer_ := s.audio_buffer_.clear, capturing_ := true }, true)

/-- The method `stop_capture()`. -/
def stop_capture (s : PipeWireAudioService) : PipeWireAudioService :=
  { s with capturing_ := false, recorded_ := s.audio_buffer_.get_samples }

/-- The method `recorded_audio()`. -/
def recorded_audio (s : PipeWireAudioService) : List AudioSample := s.recorded_

end PipeWireAudioService

/-- The injection service as the application sees it: `is_running()`, the answer of
`has_focused_input()`, and the texts passed to `inject_text`, in order. -/
structure XdoInjectionService where
  running_ : Bool
  focused_input : Bool
  inject_calls : List CppString
  deriving DecidableEq

/-- The members of `Application` behind the hotkey and result handlers; `audio_` and
`injection_` are `none` when the service is absent (not built in, or null), and
`store_saves` counts the calls of `transcription_store_->save()` made by
`on_refined_text`. -/
structure Application where
  transcription_store_ : TranscriptionStore
  store_saves : Nat
  ring_buffer_ : RingBuffer AudioSample
  orchestrator_ : TranscriptionOrchestrator
  audio_ : Option PipeWireAudioService
  injection_ : Option XdoInjectionService
  recording_ : Bool
  partial_text_ : CppString

namespace Application

/-- The handler `on_partial_text(text)`. -/
def on_partial_text (app : Application) (text : CppString) : Application :=
  { app with partial_text_ := text }

/-- The handler `on_refined_text(vosk_text, refined_text)`, the subscriber of the
orchestrator's result callback; `now` is the clock reading used by the store. -/
def on_refined_text (app : Application) (now : String) (vosk_text refined_text : CppString) :
    Application :=
  let source :=
    if vosk_text ≠ refined_text then TranscriptionSource.WHISPER else TranscriptionSource.VOSK
  let final_text := if source = TranscriptionSource.WHISPER then refined_text else vosk_text
  if final_text = [] then app
  else
    let injection :=
      match app.injection_ with
      | some inj =>
          if inj.running_ && inj.focused_input then
            some { inj with inject_calls := inj.inject_calls ++ [final_text] }
          else some inj
      | none => none
    { app with
      transcription_store_ := app.transcription_store_.append now final_text source
      store_saves := app.store_saves + 1
      injection_ := injection
      partial_text_ := [] }

/-- The handler `on_hotkey_press()`. -/
def on_hotkey_press (app : Application) : Application :=
  if app.recording_ then app
  else
    { app with
      recording_ := true
      partial_text_ := []
      audio_ := app.audio_.map fun s => s.start_capture.1
      orchestrator_ := app.orchestrator_.on_recording_start }

/-- The local `audio` of `on_hotkey_release()`: the recording snapshot taken by
`stop_capture()`, or the empty vector when there is no audio service. -/
def release_audio (app : Application) : List AudioSample :=
  match app.audio_ with
  | some s => s.stop_capture.recorded_audio
  | none => []

/-- The handler `on_hotkey_release()`: returns the new state and the argument pairs
with which the orchestrator invoked `on_refined_text`. -/
def on_hotkey_release (app : Application) (engine_final : CppString) (now : String) :
    Application × List (CppString × CppString) :=
  if !app.recording_ then (app, [])
  else
    let r := app.orchestrator_.on_recording_stop engine_final app.release_audio
    let app :=
      { app with
        recording_ := false
        audio_ := app.audio_.map fun s => s.stop_capture
        orchestrator_ := r.1 }
    (r.2.refined_calls.foldl (fun app call => app.on_refined_text now call.1 call.2) app,
      r.2.refined_calls)

end Application

/-! ## Concrete states used in the examples -/

/-- A started Vosk service with a ring buffer attached, as `Application::init` leaves it. -/
def vosk_ready : VoskRecognitionService :=
  { recognizer_ := true
    recognizer_resets := 0
    running_ := true
    ring_buffer_ := true
    streaming_ := false
    stream_threads := 0
    last_partial_ := []
    on_partial_ := false
    on_final_ := false }

/-- An orchestrator without a refinement engine, with both subscribers set. -/
def orchestrator_ready : TranscriptionOrchestrator :=
  { vosk_ := vosk_ready
    whisper_enabled := false
    whisper_ := none
    config_ := {}
    on_partial_ := true
    on_refined_ := true
    vosk_text_ := []
    was_refined_ := false }

/-- A refinement engine that transcribes every recording as the given text. -/
def whisper_saying (text : CppString) : WhisperRefinementService :=
  { ctx_ := true, whisper_full := fun _ => (0, [some text]) }

/-- An orchestrator with a working refinement engine. -/
def orchestrator_refining (text : CppString) : TranscriptionOrchestrator :=
  { orchestrator_ready with whisper_enabled := true, whisper_ := some (whisper_saying text) }

/-- The text "hi". -/
def text_hi : CppString := [104, 105]

/-- The text "ho". -/
def text_ho : CppString := [104, 111]

/-- An idle application (no recording active) with an empty history. -/
def application_idle : Application :=
  { transcription_store_ := { max_entries_ := 1000, entries_ := [] }
    store_saves := 0
    ring_buffer_ := RingBuffer.new 160000
    orchestrator_ := orchestrator_ready
    audio_ :=
      some { running_ := true, capturing_ := false, audio_buffer_ := { samples_ := [] },
             recorded_ := [] }
    injection_ := some { running_ := true, focused_input := true, inject_calls := [] }
    recording_ := false
    partial_text_ := [] }

/-- The application while a recording is active: `application_idle` after a hotkey
press. -/
def application_recording : Application := application_idle.on_hotkey_press

/-! ## Sequences of chunks -/

namespace TextEvent
/-- The text passed to the callback. -/
def text : TextEvent → CppString
  | .final_text t => t
  | .partial_text t => t
end TextEvent

/-- The text of the last final callback among the given invocations, or the empty
string when there is none. -/
def last_final (events : List TextEvent) : CppString :=
  ((events.filterMap fun ev =>
      match ev with
      | .final_text t => some t
      | .partial_text _ => none).getLast?).getD []

namespace VoskRecognitionService

/-- A sequence of chunks processed in order by `process_chunk`: the final state and the
callbacks invoked, in order. -/
def process_chunks (v : VoskRecognitionService) :
    List EngineOutput → VoskRecognitionService × List TextEvent
  | [] => (v, [])
  | out :: outs =>
      ((process_chunks (v.process_chunk out).1 outs).1,
        (v.process_chunk out).2.toList ++ (process_chunks (v.process_chunk out).1 outs).2)

end VoskRecognitionService

namespace TranscriptionOrchestrator

/-- A sequence of chunks processed in order by the streaming thread: the final state
and the texts passed to the orchestrator's `on_partial_` subscriber, in order. -/
def stream_chunks (o : TranscriptionOrchestrator) :
    List EngineOutput → TranscriptionOrchestrator × List CppString
  | [] => (o, [])
  | out :: outs =>
      ((stream_chunks (o.stream_chunk out).1 outs).1,
        (o.stream_chunk out).2 ++ (stream_chunks (o.stream_chunk out).1 outs).2)

end TranscriptionOrchestrator

/-! ## UTF-8 strings and single edits -/

/-- The UTF-8 encoding of one Unicode codepoint (RFC 3629), as `char` values. -/
def utf8_encode (c : Nat) : List Nat :=
  if c < 0x80 then [c]
  else if c < 0x800 then [0xC0 + c / 64, 0x80 + c % 64]
  else if c < 0x10000 then [0xE0 + c / 4096, 0x80 + c / 64 % 64, 0x80 + c % 64]
  else [0xF0 + c / 262144, 0x80 + c / 4096 % 64, 0x80 + c / 64 % 64, 0x80 + c % 64]

/-- The `std::string` that holds the UTF-8 encoding of a sequence of codepoints. -/
def utf8 (codepoints : List Nat) : CppString :=
  codepoints.flatMap utf8_encode

/-- The relation `OneEdit a b`: `b` is obtained from `a` by one single-unit
substitution, insertion or deletion at some position. -/
inductive OneEdit {α : Type} : List α → List α → Prop where
  | substitute (p s : List α) (x y : α) : OneEdit (p ++ x :: s) (p ++ y :: s)
  | insert (p s : List α) (y : α) : OneEdit (p ++ s) (p ++ y :: s)
  | delete (p s : List α) (x : α) : OneEdit (p ++ x :: s) (p ++ s)

/-! ## Further concrete states used in the examples -/

/-- The codepoints of "aé". -/
def text_a_e_acute : List Nat := [97, 233]

/-- The codepoints of "ae". -/
def text_a_e : List Nat := [97, 101]

/-- The text "hello". -/
def text_hello : CppString := [104, 101, 108, 108, 111]

/-- The text "hallo". -/
def text_hallo : CppString := [104, 97, 108, 108, 111]

/-- The text "hell". -/
def text_hell : CppString := [104, 101, 108, 108]

/-- The text "abc". -/
def text_abc : CppString := [97, 98, 99]

/-- The text "xyz". -/
def text_xyz : CppString := [120, 121, 122]

/-- An orchestrator whose refinement engine fails on every recording. -/
def orchestrator_failing : TranscriptionOrchestrator :=
  { orchestrator_ready with
    whisper_enabled := true
    whisper_ := some { ctx_ := true, whisper_full := fun _ => (1, []) } }

/-- Engine answers for a short recording: two partial hypotheses, one of them repeated,
an empty hypothesis, an utterance "hi", an empty utterance and a last hypothesis. -/
def outputs_hi : List EngineOutput :=
  [.hypothesis [104], .hypothesis [104], .hypothesis [], .utterance text_hi, .utterance [],
    .hypothesis text_ho]

namespace RingBuffer

/-- The buffer of the test `RingBuffer.PartialRead`: capacity 8, two samples written. -/
def partial_read_test : RingBuffer Int := ((RingBuffer.new 8 : RingBuffer Int).write [1, 2]).1

/-- The buffer of the test `RingBuffer.Peek`. -/
def peek_test : RingBuffer Int := ((RingBuffer.new 8 : RingBuffer Int).write [10, 20, 30]).1

/-- The calls of the test `RingBuffer.Reset` before the reset. -/
def reset_test : List (Call Int) := [Call.write [1, 2, 3]]

end RingBuffer

/-! ## Streaming consumer loop (`src/recognition/vosk_recognition_service.cpp`) -/

/-- The constant `CHUNK_SAMPLES`: 30 ms of audio at 16 kHz. -/
def CHUNK_SAMPLES : Nat := 480

/-- The texts of the partial callbacks among the given invocations, in order. -/
def partial_texts (events : List TextEvent) : List CppString :=
  events.filterMap fun ev =>
    match ev with
    | .partial_text t => some t
    | .final_text _ => none

namespace VoskRecognitionService

/-- One pass through the `while` loop of `streaming_thread_func()` on the attached ring
buffer `rb`: the buffer afterwards and the samples handed to `process_chunk`
(`chunk.data()` with length `n`), if any. Nothing is handed over when the loop is left
(the flag `streaming_` is cleared, or no buffer is attached) and when the thread
sleeps. -/
def streaming_iteration (v : VoskRecognitionService) (rb : RingBuffer AudioSample) :
    RingBuffer AudioSample × Option (List AudioSample) :=
  if !v.streaming_ then (rb, none)
  else if !v.ring_buffer_ then (rb, none)
  else
    let available := rb.available_read
    if available ≥ CHUNK_SAMPLES then
      let r := rb.read CHUNK_SAMPLES
      if r.2.1 > 0 then (r.1, some (r.2.2.take r.2.1)) else (r.1, none)
    else (rb, none)

/-- The given number of passes through the loop, one after the other, with no write in
between: the buffer afterwards and the chunks handed to `process_chunk`, in order. -/
def streaming_iterations (v : VoskRecognitionService) (rb : RingBuffer AudioSample) :
    Nat → RingBuffer AudioSample × List (List AudioSample)
  | 0 => (rb, [])
  | k + 1 =>
      ((streaming_iterations v (v.streaming_iteration rb).1 k).1,
        (v.streaming_iteration rb).2.toList
          ++ (streaming_iterations v (v.streaming_iteration rb).1 k).2)

end VoskRecognitionService

namespace Application

/-- One pass of the streaming thread of the application's recognizer over the
application's ring buffer: the new state and the chunk handed to `process_chunk`. -/
def streaming_iteration (app : Application) : Application × Option (List AudioSample) :=
  let r := app.orchestrator_.vosk_.streaming_iteration app.ring_buffer_
  ({ app with ring_buffer_ := r.1 }, r.2)

end Application

/-! ## `Result<T, E>` (`src/core/result.hpp`) -/

/-- The members of `Result<T, E>`; the private default constructor value-initialises
`value_` and `error_`. -/
structure Result (T E : Type) where
  is_ok_ : Bool
  value_ : T
  error_ : E

namespace Result

variable {T E : Type}

/-- The factory `ok(value)`. -/
def ok [Inhabited T] [Inhabited E] (value : T) : Result T E :=
  { is_ok_ := true, value_ := value, error_ := default }

/-- The factory `err(error)`. -/
def err [Inhabited T] [Inhabited E] (error : E) : Result T E :=
  { is_ok_ := false, value_ := default, error_ := error }

/-- The method `is_ok()`. -/
def is_ok (r : Result T E) : Bool := r.is_ok_

/-- The method `is_err()`. -/
def is_err (r : Result T E) : Bool := !r.is_ok_

/-- The method `value()`; `.error msg` stands for `throw std::runtime_error(msg)`. -/
def value (r : Result T E) : Except String T :=
  if !r.is_ok_ then .error "Result::value() called on error" else .ok r.value_

/-- The method `error()`; `.error msg` stands for `throw std::runtime_error(msg)`. -/
def error (r : Result T E) : Except String E :=
  if r.is_ok_ then .error "Result::error() called on ok value" else .ok r.error_

/-- The method `value_or(default_value)`. -/
def value_or (r : Result T E) (default_value : T) : T :=
  if r.is_ok_ then r.value_ else default_value

end Result

/-- The members of the specialisation `Result<void, E>`. -/
structure ResultVoid (E : Type) where
  is_ok_ : Bool
  error_ : E

namespace ResultVoid

variable {E : Type}

/-- The factory `ok()`. -/
def ok [Inhabited E] : ResultVoid E := { is_ok_ := true, error_ := default }

/-- The factory `err(error)`. -/
def err (error : E) : ResultVoid E := { is_ok_ := false, error_ := error }

/-- The method `is_ok()`. -/
def is_ok (r : ResultVoid E) : Bool := r.is_ok_

/-- The method `is_err()`. -/
def is_err (r : ResultVoid E) : Bool := !r.is_ok_

/-- The method `error()`; `.error msg` stands for `throw std::runtime_error(msg)`. -/
def error (r : ResultVoid E) : Except String E :=
  if r.is_ok_ then .error "Result::error() called on ok value" else .ok r.error_

end ResultVoid

/-! ## Hotkey modifiers (`src/hotkey/xcb_hotkey_service.cpp`) -/

/-- The struct `XcbHotkeyService::ModifierState`. -/
structure ModifierState where
  ctrl : Bool := false
  super : Bool := false
  alt : Bool := false
  shift : Bool := false
  deriving DecidableEq

/-- The members of `XcbHotkeyService` behind the modifier check. -/
structure XcbHotkeyService where
  required_modifiers_ : List String
  required_mask_ : Nat

/-- The X11 modifier masks `ControlMask`, `Mod1Mask`, `Mod4Mask` and `ShiftMask`. -/
def CTRL_MASK : Nat := 4

/-- The mask of the Alt key. -/
def ALT_MASK : Nat := 8

/-- The mask of the Super key. -/
def SUPER_MASK : Nat := 64

/-- The mask of the Shift key. -/
def SHIFT_MASK : Nat := 1

namespace XcbHotkeyService

/-- The function `modifier_name_to_mask(name)`. -/
def modifier_name_to_mask (name : String) : Nat :=
  if name = "ctrl" ∨ name = "control" then CTRL_MASK
  else if name = "alt" then ALT_MASK
  else if name = "super" ∨ name = "meta" then SUPER_MASK
  else if name = "shift" then SHIFT_MASK
  else 0

/-- The method `set_modifiers(modifiers)`. -/
def set_modifiers (_s : XcbHotkeyService) (modifiers : List String) : XcbHotkeyService :=
  { required_modifiers_ := modifiers
    required_mask_ := modifiers.foldl (fun mask name => mask ||| modifier_name_to_mask name) 0 }

/-- The loop of `check_modifiers` over the names still to be visited: `some false` is
the early `return false`, `none` means that the loop ran to its end. -/
def check_loop (state : ModifierState) : List String → Option Bool
  | [] => none
  | name :: rest =>
      if name = "ctrl" ∨ name = "control" then
        if !state.ctrl then some false else check_loop state rest
      else if name = "alt" then
        if !state.alt then some false else check_loop state rest
      else if name = "super" ∨ name = "meta" then
        if !state.super then some false else check_loop state rest
      else if name = "shift" then
        if !state.shift then some false else check_loop state rest
      else check_loop state rest

/-- The method `check_modifiers(state)`. -/
def check_modifiers (s : XcbHotkeyService) (state : ModifierState) : Bool :=
  match check_loop state s.required_modifiers_ with
  | some result => result
  | none => !s.required_modifiers_.isEmpty

/-- The state asked for by a modifier name: whether its key is down. A name that
`check_modifiers` does not know asks for nothing. -/
def pressed (state : ModifierState) (name : String) : Bool :=
  if name = "ctrl" ∨ name = "control" then state.ctrl
  else if name = "alt" then state.alt
  else if name = "super" ∨ name = "meta" then state.super
  else if name = "shift" then state.shift
  else true

end XcbHotkeyService

/-! ## Concrete states used in the further examples -/

/-- A store with the cap 1 that holds `2 ^ 31 - 1` entries (read by `load()` from a
history file, which applies no cap). -/
def store_at_int_max : TranscriptionStore :=
  { max_entries_ := 1
    entries_ :=
      List.replicate (2 ^ 31 - 1)
        { timestamp := "", text := text_hi, source := TranscriptionSource.VOSK } }

/-- The store of the test `MaxEntries` before the fourth `append`. -/
def store_max_entries_test : TranscriptionStore :=
  { max_entries_ := 3
    entries_ :=
      [{ timestamp := "", text := [111, 110, 101], source := TranscriptionSource.VOSK },
       { timestamp := "", text := [116, 119, 111], source := TranscriptionSource.VOSK },
       { timestamp := "", text := [116, 104, 114, 101, 101],
         source := TranscriptionSource.VOSK }] }

/-- The samples of one chunk (`CHUNK_SAMPLES` of them), all of the value 7. -/
def stale_samples : List AudioSample := List.replicate 480 7

/-- A ring buffer of capacity 960 that holds one chunk of unread samples. -/
def chunk_buffer : RingBuffer AudioSample :=
  ((RingBuffer.new 960 : RingBuffer AudioSample).write stale_samples).1

/-- The service of the test `XcbHotkeyService.ModifierStateCheck`. -/
def hotkey_test : XcbHotkeyService :=
  ({ required_modifiers_ := [], required_mask_ := 0 } : XcbHotkeyService).set_modifiers
    ["ctrl", "super", "alt"]

/-! ## Theorems -/

theorem size_sub_of_le {a b : Nat} (ha : a < SIZE_MOD) (hb : b ≤ a) : size_sub a b = a - b := by
  unfold size_sub SIZE_MOD at *; omega

theorem size_add_of_lt {a b : Nat} (h : a + b < SIZE_MOD) : size_add a b = a + b := by
  unfold size_add SIZE_MOD at *; omega

theorem size_sub_lt (a b : Nat) : size_sub a b < SIZE_MOD := by
  unfold size_sub SIZE_MOD; omega

theorem size_add_lt (a b : Nat) : size_add a b < SIZE_MOD := by
  unfold size_add SIZE_MOD; omega

theorem size_sub_size_add_left {wp rp n : Nat} (hw : wp < SIZE_MOD) (hr : rp < SIZE_MOD)
    (h : size_sub wp rp + n < SIZE_MOD) : size_sub (size_add wp n) rp = size_sub wp rp + n := by
  unfold size_sub size_add SIZE_MOD at *; omega

theorem size_sub_size_add_right {wp rp n : Nat} (hw : wp < SIZE_MOD) (hr : rp < SIZE_MOD)
    (h : n ≤ size_sub wp rp) : size_sub wp (size_add rp n) = size_sub wp rp - n := by
  unfold size_sub size_add SIZE_MOD at *; omega
variable {T : Type}

theorem memcpy_length {dst src : List T} {off n : Nat} (h1 : off + n ≤ dst.length)
    (h2 : n ≤ src.length) : (memcpy dst off src n).length = dst.length := by
  simp only [memcpy, List.length_append, List.length_take, List.length_drop]
  omega

/-- One contiguous copy, seen from the slot where it starts. -/
theorem memcpy_rotate_single {B data : List T} {s n : Nat} (hn : s + n ≤ B.length)
    (hd : n ≤ data.length) :
    (memcpy B s data n).rotate s = data.take n ++ (B.rotate s).drop n := by
  have hs : s ≤ B.length := by omega
  have hlen := memcpy_length hn hd
  rw [List.rotate_eq_drop_append_take (by omega), List.rotate_eq_drop_append_take hs]
  have h1 : (memcpy B s data n).drop s = data.take n ++ B.drop (s + n) := by
    unfold memcpy
    rw [List.append_assoc]
    exact List.drop_left' (by simp [hs])
  have h2 : (memcpy B s data n).take s = B.take s := by
    unfold memcpy
    rw [List.append_assoc]
    exact List.take_left' (by simp [hs])
  rw [h1, h2, List.drop_append_of_le_length (by simp; omega), List.drop_drop, List.append_assoc]


/-- A copy split in two at the end of the storage, seen from the slot where it starts. -/
theorem memcpy_rotate_split {B data : List T} {s n : Nat} (hs : s ≤ B.length)
    (hn : n ≤ B.length) (hf : B.length - s < n) (hd : n ≤ data.length) :
    (memcpy (memcpy B s data (B.length - s)) 0 (data.drop (B.length - s))
        (n - (B.length - s))).rotate s
      = data.take n ++ (B.rotate s).drop n := by
  set f := B.length - s with hfdef
  set m := n - f with hmdef
  have hB1 : memcpy B s data f = B.take s ++ data.take f := by
    unfold memcpy
    rw [List.drop_eq_nil_of_le (by omega), List.append_nil]
  have hB2 : memcpy (B.take s ++ data.take f) 0 (data.drop f) m
      = ((data.drop f).take m ++ (B.take s).drop m) ++ data.take f := by
    unfold memcpy
    rw [List.take_zero, List.nil_append, Nat.zero_add,
      List.drop_append_of_le_length (by simp; omega), List.append_assoc]
  have hlen : ((data.drop f).take m ++ (B.take s).drop m).length = s := by
    simp only [List.length_append, List.length_take, List.length_drop]
    omega
  have hrot := List.rotate_append_length_eq
    ((data.drop f).take m ++ (B.take s).drop m) (data.take f)
  rw [hlen] at hrot
  have hrhs : (B.rotate s).drop n = (B.take s).drop m := by
    rw [List.rotate_eq_drop_append_take hs, List.drop_append_eq_append_drop,
      List.drop_eq_nil_of_le (by simp only [List.length_drop]; omega), List.nil_append,
      List.length_drop]
  have hn' : n = f + m := by omega
  have ht : data.take n = data.take f ++ (data.drop f).take m := by
    rw [hn', List.take_add]
  rw [hB1, hB2, hrot, hrhs, ht, List.append_assoc]
namespace RingBuffer

theorem copy_out_eq {rb : RingBuffer T} (h : rb.WF) (rp n : Nat) (hn : n ≤ rb.capacity_)
    (hpos : 0 < n) : rb.copy_out rp n = (rb.buffer_.rotate rp).take n := by
  obtain ⟨hc, hlen, -, -, -⟩ := h
  have hcpos : 0 < rb.capacity_ := by omega
  have hs : rp % rb.capacity_ < rb.capacity_ := Nat.mod_lt _ hcpos
  have hfirst : size_sub rb.capacity_ (rp % rb.capacity_) = rb.capacity_ - rp % rb.capacity_ :=
    size_sub_of_le hc hs.le
  have hrot : rb.buffer_.rotate rp
      = rb.buffer_.drop (rp % rb.capacity_) ++ rb.buffer_.take (rp % rb.capacity_) := by
    rw [← List.rotate_mod, hlen, List.rotate_eq_drop_append_take (by omega)]
  unfold copy_out
  simp only [hfirst]
  rw [hrot, List.take_append_eq_append_take, List.length_drop, hlen]
  split_ifs with hle
  · rw [Nat.sub_eq_zero_of_le hle, List.take_zero, List.append_nil]
  · have e1 : (rb.buffer_.drop (rp % rb.capacity_)).take (rb.capacity_ - rp % rb.capacity_)
        = rb.buffer_.drop (rp % rb.capacity_) :=
      List.take_of_length_le (by simp only [List.length_drop]; omega)
    have e2 : (rb.buffer_.drop (rp % rb.capacity_)).take n
        = rb.buffer_.drop (rp % rb.capacity_) :=
      List.take_of_length_le (by simp only [List.length_drop]; omega)
    rw [size_sub_of_le (by unfold SIZE_MOD at *; omega) (by omega), List.take_take,
      Nat.min_eq_left (by omega), e1, e2]

/-- The storage after a write of `n` items (`0 < n ≤ capacity`), seen from the slot of
the old write position: the first `n` slots hold the data, the others are kept. -/
theorem write_storage {B data : List T} (wp n : Nat) (hn0 : n ≠ 0) (hnB : n ≤ B.length)
    (hnd : n ≤ data.length) :
    let s := wp % B.length
    let B' := if n ≤ B.length - s then memcpy B s data n
      else memcpy (memcpy B s data (B.length - s)) 0 (data.drop (B.length - s))
        (n - (B.length - s))
    B'.length = B.length ∧ B'.rotate wp = data.take n ++ (B.rotate wp).drop n := by
  intro s B'
  have hs : s < B.length := Nat.mod_lt _ (by omega)
  have hlen : B'.length = B.length := by
    show (if _ then _ else _ : List T).length = _
    split_ifs with hle
    · exact memcpy_length (by omega) hnd
    · rw [memcpy_length (by rw [memcpy_length (by omega) (by omega)]; omega)
        (by simp only [List.length_drop]; omega), memcpy_length (by omega) (by omega)]
  refine ⟨hlen, ?_⟩
  rw [← List.rotate_mod B' wp, ← List.rotate_mod B wp, hlen]
  show (if _ then _ else _ : List T).rotate s = _
  split_ifs with hle
  · exact memcpy_rotate_single (by omega) hnd
  · exact memcpy_rotate_split hs.le hnB (by omega) hnd

theorem write_spec {rb : RingBuffer T} (h : rb.WF) (data : List T) :
    (rb.write data).2 = min data.length rb.available_write ∧
    (rb.write data).1.capacity_ = rb.capacity_ ∧
    (rb.write data).1.read_pos_ = rb.read_pos_ ∧
    (rb.write data).1.write_pos_ = size_add rb.write_pos_ (rb.write data).2 ∧
    (rb.write data).1.buffer_.length = rb.capacity_ ∧
    (rb.write data).1.buffer_.rotate rb.write_pos_
      = data.take (rb.write data).2 ++ (rb.buffer_.rotate rb.write_pos_).drop (rb.write data).2 := by
  obtain ⟨hc, hlen, hr, hw, hd⟩ := h
  obtain ⟨cap, B, rp, wp⟩ := rb
  simp only at hc hlen hr hw hd
  subst hlen
  have hav : available_write ⟨B.length, B, rp, wp⟩ = B.length - size_sub wp rp :=
    size_sub_of_le hc hd
  have hmin : (if data.length ≤ available_write_at ⟨B.length, B, rp, wp⟩ wp rp
      then data.length else available_write_at ⟨B.length, B, rp, wp⟩ wp rp)
      = min data.length (available_write ⟨B.length, B, rp, wp⟩) := by
    show _ = min data.length (available_write_at ⟨B.length, B, rp, wp⟩ wp rp)
    split_ifs with hle
    · exact (Nat.min_eq_left hle).symm
    · exact (Nat.min_eq_right (by omega)).symm
  simp only [write, hmin]
  generalize hn : min data.length (available_write ⟨B.length, B, rp, wp⟩) = n
  by_cases h0 : n = 0
  · simp [h0, size_add, Nat.mod_eq_of_lt hw]
  · have hnd : n ≤ data.length := hn ▸ Nat.min_le_left _ _
    have hnB : n ≤ B.length := by
      have := Nat.min_le_right data.length (available_write ⟨B.length, B, rp, wp⟩)
      omega
    have hs : wp % B.length < B.length := Nat.mod_lt _ (by omega)
    have hfirst : size_sub B.length (wp % B.length) = B.length - wp % B.length :=
      size_sub_of_le hc hs.le
    have hsub : ¬ n ≤ B.length - wp % B.length →
        size_sub n (B.length - wp % B.length) = n - (B.length - wp % B.length) := fun hle =>
      size_sub_of_le (by unfold SIZE_MOD at *; omega) (by omega)
    have key := @write_storage T B data wp n h0 hnB hnd
    simp only [h0, if_false, hfirst, true_and]
    by_cases hle : n ≤ B.length - wp % B.length
    · simp only [hle, if_true] at key ⊢
      exact key
    · simp only [hle, if_false, hsub hle] at key ⊢
      exact key


theorem read_spec {rb : RingBuffer T} (h : rb.WF) (count : Nat) :
    (rb.read count).2.1 = min count rb.available_read ∧
    (rb.read count).1.capacity_ = rb.capacity_ ∧
    (rb.read count).1.buffer_ = rb.buffer_ ∧
    (rb.read count).1.write_pos_ = rb.write_pos_ ∧
    (rb.read count).1.read_pos_ = size_add rb.read_pos_ (rb.read count).2.1 ∧
    (rb.read count).2.2 = (rb.buffer_.rotate rb.read_pos_).take (rb.read count).2.1 := by
  have hmin : (if count ≤ size_sub rb.write_pos_ rb.read_pos_ then count
      else size_sub rb.write_pos_ rb.read_pos_) = min count rb.available_read := by
    show _ = min count (size_sub rb.write_pos_ rb.read_pos_)
    split_ifs with hle
    · exact (Nat.min_eq_left hle).symm
    · exact (Nat.min_eq_right (by omega)).symm
  simp only [read, hmin]
  generalize hn : min count rb.available_read = n
  by_cases h0 : n = 0
  · simp [h0, size_add, Nat.mod_eq_of_lt h.2.2.1]
  · have hnc : n ≤ rb.capacity_ := by
      have h1 := Nat.min_le_right count rb.available_read
      have h2 : rb.available_read ≤ rb.capacity_ := h.2.2.2.2
      omega
    simp only [h0, if_false, true_and]
    exact copy_out_eq h _ _ hnc (by omega)

theorem WF_new [Inhabited T] {capacity : Nat} (h : capacity < SIZE_MOD) :
    (RingBuffer.new capacity : RingBuffer T).WF := by
  refine ⟨h, by simp [RingBuffer.new], ?_, ?_, ?_⟩ <;>
    simp [RingBuffer.new, size_sub, SIZE_MOD]

theorem WF_write {rb : RingBuffer T} (h : rb.WF) (data : List T) : (rb.write data).1.WF := by
  obtain ⟨hn, hcap, hrp, hwp, hlen, -⟩ := write_spec h data
  obtain ⟨hc, -, hr, hw, hd⟩ := h
  have hav : rb.available_write = rb.capacity_ - size_sub rb.write_pos_ rb.read_pos_ :=
    size_sub_of_le hc hd
  have hle := Nat.min_le_right data.length rb.available_write
  refine ⟨hcap ▸ hc, hlen.trans hcap.symm, hrp ▸ hr, hwp ▸ size_add_lt _ _, ?_⟩
  rw [hwp, hrp, hcap, size_sub_size_add_left hw hr (by omega)]
  omega

theorem WF_read {rb : RingBuffer T} (h : rb.WF) (count : Nat) : (rb.read count).1.WF := by
  obtain ⟨hn, hcap, hbuf, hwp, hrp, -⟩ := read_spec h count
  obtain ⟨hc, hlen, hr, hw, hd⟩ := h
  have hle : (rb.read count).2.1 ≤ size_sub rb.write_pos_ rb.read_pos_ :=
    hn ▸ Nat.min_le_right count rb.available_read
  refine ⟨hcap ▸ hc, by rw [hbuf, hcap]; exact hlen, hrp ▸ size_add_lt _ _, hwp ▸ hw, ?_⟩
  rw [hwp, hrp, hcap, size_sub_size_add_right hw hr hle]
  omega

theorem WF_reset {rb : RingBuffer T} (h : rb.WF) : rb.reset.WF := by
  obtain ⟨hc, hlen, -, -, -⟩ := h
  refine ⟨hc, hlen, ?_, ?_, ?_⟩ <;> simp [reset, size_sub, SIZE_MOD]

/-- While the read position has not wrapped, a read splits the unread samples into the
returned items and what remains unread. -/
theorem contents_read {rb : RingBuffer T} (h : rb.WF) (hle : rb.read_pos_ ≤ rb.write_pos_)
    (count : Nat) :
    rb.contents = (rb.read count).2.2 ++ (rb.read count).1.contents := by
  obtain ⟨hn, hcap, hbuf, hwp, hrp, hout⟩ := read_spec h count
  obtain ⟨hc, hlen, hr, hw, hd⟩ := h
  have hdv : size_sub rb.write_pos_ rb.read_pos_ = rb.write_pos_ - rb.read_pos_ :=
    size_sub_of_le hw hle
  have hnd : (rb.read count).2.1 ≤ rb.write_pos_ - rb.read_pos_ := by
    rw [hn, ← hdv]; exact Nat.min_le_right _ _
  generalize (rb.read count).2.1 = n at *
  have hrp' : (rb.read count).1.read_pos_ = rb.read_pos_ + n := by
    rw [hrp]; exact size_add_of_lt (by omega)
  have hav' : (rb.read count).1.available_read = rb.write_pos_ - rb.read_pos_ - n := by
    show size_sub _ _ = _
    rw [hwp, hrp', size_sub_of_le hw (by omega)]; omega
  unfold contents
  rw [hout, hav', hbuf, hrp', ← List.rotate_rotate]
  show List.take (size_sub _ _) _ = _
  rw [hdv]
  set Y := rb.buffer_.rotate rb.read_pos_ with hY
  have hYlen : Y.length = rb.capacity_ := by rw [hY, List.length_rotate, hlen]
  rw [List.rotate_eq_drop_append_take (by omega),
    List.take_append_of_le_length (by simp only [List.length_drop]; omega)]
  have e1 : Y.take n = (Y.take (rb.write_pos_ - rb.read_pos_)).take n := by
    rw [List.take_take, Nat.min_eq_left hnd]
  have e2 : (Y.drop n).take (rb.write_pos_ - rb.read_pos_ - n)
      = (Y.take (rb.write_pos_ - rb.read_pos_)).drop n := (List.drop_take _ _ _).symm
  rw [e1, e2, List.take_append_drop]

/-- While the write position does not wrap, a write appends the accepted items to the
unread samples. -/
theorem contents_write {rb : RingBuffer T} (h : rb.WF) (hle : rb.read_pos_ ≤ rb.write_pos_)
    (data : List T) (hov : rb.write_pos_ + (rb.write data).2 < SIZE_MOD) :
    (rb.write data).1.contents = rb.contents ++ data.take (rb.write data).2 := by
  obtain ⟨hn, hcap, hrp, hwp, hlen', hrot⟩ := write_spec h data
  obtain ⟨hc, hlen, hr, hw, hd⟩ := h
  have hdv : size_sub rb.write_pos_ rb.read_pos_ = rb.write_pos_ - rb.read_pos_ :=
    size_sub_of_le hw hle
  have hav : rb.available_write = rb.capacity_ - (rb.write_pos_ - rb.read_pos_) := by
    rw [← hdv]; exact size_sub_of_le hc hd
  have hnd : (rb.write data).2 ≤ rb.capacity_ - (rb.write_pos_ - rb.read_pos_) := by
    rw [hn, ← hav]; exact Nat.min_le_right _ _
  have hndata : (rb.write data).2 ≤ data.length := by
    rw [hn]; exact Nat.min_le_left _ _
  generalize (rb.write data).2 = n at *
  generalize (rb.write data).1 = rb' at *
  have hwp' : rb'.write_pos_ = rb.write_pos_ + n := by
    rw [hwp]; exact size_add_of_lt hov
  have hav' : rb'.available_read = rb.write_pos_ - rb.read_pos_ + n := by
    show size_sub _ _ = _
    rw [hwp', hrp, size_sub_of_le (by omega) (by omega)]; omega
  rw [hdv] at hd
  unfold contents
  rw [hav', hrp]
  show _ = List.take (size_sub _ _) _ ++ _
  rw [hdv]
  set d := rb.write_pos_ - rb.read_pos_ with hddef
  set Y := rb.buffer_.rotate rb.read_pos_ with hY
  have hYlen : Y.length = rb.capacity_ := by rw [hY, List.length_rotate, hlen]
  have hX : rb.buffer_.rotate rb.write_pos_ = Y.drop d ++ Y.take d := by
    have : rb.write_pos_ = rb.read_pos_ + d := by omega
    rw [this, ← List.rotate_rotate]
    exact List.rotate_eq_drop_append_take (by rw [hYlen]; omega)
  -- the new storage seen from the read position
  have hback : rb'.buffer_.rotate rb.read_pos_
      = (rb'.buffer_.rotate rb.write_pos_).rotate (rb.capacity_ - d) := by
    rw [List.rotate_rotate, ← List.rotate_mod, ← List.rotate_mod _ (rb.write_pos_ + _), hlen']
    congr 1
    have : rb.write_pos_ + (rb.capacity_ - d) = rb.read_pos_ + rb.capacity_ := by omega
    rw [this, Nat.add_mod_right]
  rw [hback, hrot, hX]
  have hRlen : (data.take n ++ (Y.drop d ++ Y.take d).drop n).length = rb.capacity_ := by
    simp only [List.length_append, List.length_take, List.length_drop]
    omega
  rw [List.rotate_eq_drop_append_take (by omega)]
  have e1 : (data.take n ++ (Y.drop d ++ Y.take d).drop n).drop (rb.capacity_ - d) = Y.take d := by
    rw [List.drop_append_eq_append_drop, List.drop_eq_nil_of_le (by simp; omega), List.nil_append,
      List.drop_drop, List.length_take, Nat.min_eq_left hndata]
    have : n + (rb.capacity_ - d - n) = (Y.drop d).length := by
      simp only [List.length_drop]; omega
    rw [this, List.drop_left]
  have e2 : ((data.take n ++ (Y.drop d ++ Y.take d).drop n).take (rb.capacity_ - d)).take n
      = data.take n := by
    rw [List.take_take, Nat.min_eq_left hnd,
      List.take_append_of_le_length (by simp; omega), List.take_take, Nat.min_self]
  rw [e1, List.take_append_eq_append_take, List.length_take, Nat.min_eq_left (by omega),
    List.take_take, Nat.min_eq_right (by omega), Nat.add_sub_cancel_left, e2]


namespace Session

theorem Inv_start [Inhabited T] {capacity : Nat} (h : capacity < SIZE_MOD) :
    (start capacity : Session T).Inv := by
  refine ⟨WF_new h, fun _ => ⟨rfl, rfl, ?_⟩⟩
  simp [start, contents, RingBuffer.new, available_read, size_sub, SIZE_MOD]

theorem Inv_step {s : Session T} (h : s.Inv) (op : Transfer T) : (s.step op).Inv := by
  obtain ⟨hwf, hinv⟩ := h
  cases op with
  | write data =>
    refine ⟨WF_write hwf data, fun hlt => ?_⟩
    obtain ⟨hn, -, hrp, hwp, -, -⟩ := write_spec hwf data
    have hnd : (s.rb.write data).2 ≤ data.length := hn ▸ Nat.min_le_left _ _
    have hlen : (s.step (.write data)).accepted.length
        = s.accepted.length + (s.rb.write data).2 := by
      simp only [step, List.length_append, List.length_take, Nat.min_eq_left hnd]
    rw [hlen] at hlt
    obtain ⟨h1, h2, h3⟩ := hinv (by omega)
    have hle : s.rb.read_pos_ ≤ s.rb.write_pos_ := by
      rw [h1, h2, h3, List.length_append]; omega
    have hc := contents_write hwf hle data (by omega)
    refine ⟨?_, ?_, ?_⟩
    · show (s.rb.write data).1.write_pos_ = _
      rw [hlen, hwp, size_add_of_lt (by omega), h1]
    · show (s.rb.write data).1.read_pos_ = _
      rw [hrp, h2]; rfl
    · show s.accepted ++ _ = s.returned ++ (s.rb.write data).1.contents
      rw [hc, ← List.append_assoc, ← h3]
  | read count =>
    refine ⟨WF_read hwf count, fun hlt => ?_⟩
    obtain ⟨h1, h2, h3⟩ := hinv hlt
    have hle : s.rb.read_pos_ ≤ s.rb.write_pos_ := by
      rw [h1, h2, h3, List.length_append]; omega
    obtain ⟨hn, -, -, hwp, hrp, hout⟩ := read_spec hwf count
    have hc := contents_read hwf hle count
    have hnd : (s.rb.read count).2.1 ≤ s.rb.write_pos_ - s.rb.read_pos_ := by
      rw [hn]
      have : s.rb.available_read = s.rb.write_pos_ - s.rb.read_pos_ :=
        size_sub_of_le hwf.2.2.2.1 hle
      rw [← this]; exact Nat.min_le_right _ _
    have hol : (s.rb.read count).2.2.length = (s.rb.read count).2.1 := by
      rw [hout, List.length_take, List.length_rotate, hwf.2.1]
      have := hwf.2.2.2.2
      have : size_sub s.rb.write_pos_ s.rb.read_pos_ = s.rb.write_pos_ - s.rb.read_pos_ :=
        size_sub_of_le hwf.2.2.2.1 hle
      omega
    have hw := hwf.2.2.2.1
    refine ⟨?_, ?_, ?_⟩
    · show (s.rb.read count).1.write_pos_ = s.accepted.length
      rw [hwp, h1]
    · show (s.rb.read count).1.read_pos_ = (s.returned ++ _).length
      rw [hrp, size_add_of_lt (by omega), List.length_append, hol, h2]
    · show s.accepted = (s.returned ++ _) ++ (s.rb.read count).1.contents
      rw [List.append_assoc, ← hc, ← h3]

theorem Inv_run {s : Session T} (h : s.Inv) (ops : List (Transfer T)) : (s.run ops).Inv := by
  induction ops generalizing s with
  | nil => exact h
  | cons op ops ih => exact ih (Inv_step h op)

end Session

theorem WF_call {rb : RingBuffer T} (h : rb.WF) (c : Call T) : (rb.call c).WF := by
  cases c with
  | write data => exact WF_write h data
  | read count => exact WF_read h count
  | peek count => exact h
  | reset => exact WF_reset h

theorem WF_calls {rb : RingBuffer T} (h : rb.WF) (cs : List (Call T)) : (rb.calls cs).WF := by
  induction cs generalizing rb with
  | nil => exact h
  | cons c cs ih => exact ih (WF_call h c)

theorem capacity_call {rb : RingBuffer T} (h : rb.WF) (c : Call T) :
    (rb.call c).capacity_ = rb.capacity_ := by
  cases c with
  | write data => exact (write_spec h data).2.1
  | read count => exact (read_spec h count).2.1
  | peek count => rfl
  | reset => rfl

theorem capacity_calls {rb : RingBuffer T} (h : rb.WF) (cs : List (Call T)) :
    (rb.calls cs).capacity_ = rb.capacity_ := by
  induction cs generalizing rb with
  | nil => rfl
  | cons c cs ih => exact (ih (WF_call h c)).trans (capacity_call h c)

theorem available_sum {rb : RingBuffer T} (h : rb.WF) :
    rb.available_read + rb.available_write = rb.capacity := by
  obtain ⟨hc, -, -, -, hd⟩ := h
  have : rb.available_write = rb.capacity_ - size_sub rb.write_pos_ rb.read_pos_ :=
    size_sub_of_le hc hd
  show size_sub _ _ + _ = rb.capacity_
  omega

theorem ordered_calls {rb : RingBuffer T} (h : rb.WF) (hle : rb.read_pos_ ≤ rb.write_pos_)
    (cs : List (Call T)) (hnw : no_wrap rb cs = true) :
    (rb.calls cs).read_pos_ ≤ (rb.calls cs).write_pos_ := by
  induction cs generalizing rb with
  | nil => exact hle
  | cons c cs ih =>
    cases c with
    | write data =>
      simp only [no_wrap, Bool.and_eq_true, decide_eq_true_eq] at hnw
      obtain ⟨hov, hnw'⟩ := hnw
      refine ih (WF_write h data) ?_ hnw'
      obtain ⟨-, -, hrp, hwp, -, -⟩ := write_spec h data
      show (rb.write data).1.read_pos_ ≤ (rb.write data).1.write_pos_
      rw [hrp, hwp, size_add_of_lt hov]; omega
    | read count =>
      refine ih (WF_read h count) ?_ hnw
      obtain ⟨hn, -, -, hwp, hrp, -⟩ := read_spec h count
      have hav : rb.available_read = rb.write_pos_ - rb.read_pos_ := size_sub_of_le h.2.2.2.1 hle
      have := Nat.min_le_right count rb.available_read
      have hw := h.2.2.2.1
      show (rb.read count).1.read_pos_ ≤ (rb.read count).1.write_pos_
      rw [hrp, hwp, size_add_of_lt (by omega)]; omega
    | peek count => exact ih h hle hnw
    | reset => exact ih (WF_reset h) (Nat.le_refl 0) hnw

theorem calls_append (rb : RingBuffer T) (l₁ l₂ : List (Call T)) :
    rb.calls (l₁ ++ l₂) = (rb.calls l₁).calls l₂ :=
  List.foldl_append _ _ _ _

theorem calls_singleton (rb : RingBuffer T) (c : Call T) : rb.calls [c] = rb.call c := rfl

theorem full_round_spec {rb : RingBuffer Int} (h : rb.WF) (hc : rb.capacity_ = 4)
    (he : rb.read_pos_ = rb.write_pos_) (hov : rb.write_pos_ + 4 < SIZE_MOD) :
    (rb.calls full_round).WF ∧ (rb.calls full_round).capacity_ = 4 ∧
    (rb.calls full_round).read_pos_ = rb.write_pos_ + 4 ∧
    (rb.calls full_round).write_pos_ = rb.write_pos_ + 4 := by
  have hwf := WF_calls h full_round
  have hcap := capacity_calls h full_round
  obtain ⟨hn, hcap1, hrp1, hwp1, -, -⟩ := write_spec h [0, 0, 0, 0]
  have hwf1 := WF_write h [0, 0, 0, 0]
  obtain ⟨hn2, -, -, hwp2, hrp2, -⟩ := read_spec hwf1 4
  have hav : rb.available_write = 4 := by
    show size_sub rb.capacity_ (size_sub rb.write_pos_ rb.read_pos_) = 4
    rw [he, hc]; unfold size_sub SIZE_MOD at *; omega
  have hn' : (rb.write [0, 0, 0, 0]).2 = 4 := by rw [hn, hav]; rfl
  have hwp1' : (rb.write [0, 0, 0, 0]).1.write_pos_ = rb.write_pos_ + 4 := by
    rw [hwp1, hn', size_add_of_lt hov]
  have hav2 : (rb.write [0, 0, 0, 0]).1.available_read = 4 := by
    show size_sub _ _ = 4
    rw [hwp1', hrp1, he]; unfold size_sub SIZE_MOD at *; omega
  have hn2' : ((rb.write [0, 0, 0, 0]).1.read 4).2.1 = 4 := by rw [hn2, hav2]; rfl
  refine ⟨hwf, hcap.trans hc, ?_, ?_⟩
  · show ((rb.write [0, 0, 0, 0]).1.read 4).1.read_pos_ = _
    rw [hrp2, hn2', hrp1, he, size_add_of_lt hov]
  · show ((rb.write [0, 0, 0, 0]).1.read 4).1.write_pos_ = _
    rw [hwp2, hwp1']

theorem full_rounds_spec (k : Nat) {rb : RingBuffer Int} (h : rb.WF) (hc : rb.capacity_ = 4)
    (he : rb.read_pos_ = rb.write_pos_) (hov : rb.write_pos_ + 4 * k < SIZE_MOD) :
    (rb.calls (List.replicate k full_round).flatten).WF ∧
    (rb.calls (List.replicate k full_round).flatten).capacity_ = 4 ∧
    (rb.calls (List.replicate k full_round).flatten).read_pos_ = rb.write_pos_ + 4 * k ∧
    (rb.calls (List.replicate k full_round).flatten).write_pos_ = rb.write_pos_ + 4 * k := by
  induction k generalizing rb with
  | zero => exact ⟨h, hc, he, rfl⟩
  | succ k ih =>
    obtain ⟨h1, h2, h3, h4⟩ := full_round_spec h hc he (by omega)
    have e : rb.calls (List.replicate (k + 1) full_round).flatten
        = (rb.calls full_round).calls (List.replicate k full_round).flatten := by
      simp only [calls, List.replicate_succ, List.flatten_cons, List.foldl_append]
    rw [e]
    obtain ⟨i1, i2, i3, i4⟩ := ih h1 h2 (h3.trans h4.symm) (by rw [h4]; omega)
    exact ⟨i1, i2, by rw [i3, h4]; omega, by rw [i4, h4]; omega⟩


/-! ### Claims on the ring buffer -/

/-- C1: for every capacity and every sequence of `write` and `read` calls on a new
buffer whose write position does not wrap (fewer than `2 ^ 64` samples accepted in
all), the samples accepted by the writes are the samples returned by the reads followed
by the samples still unread in the buffer; so the reads return a prefix of what the
writes accepted: nothing is lost, duplicated or reordered, also across the wrap-around
of the storage index. -/
theorem fifo [Inhabited T] (C : Nat) (hC : C < SIZE_MOD)
    (ops : List (Transfer T))
    (hov : ((Session.start C : Session T).run ops).accepted.length < SIZE_MOD) :
    ((Session.start C : Session T).run ops).accepted
      = ((Session.start C : Session T).run ops).returned
          ++ ((Session.start C : Session T).run ops).rb.contents ∧
    ((Session.start C : Session T).run ops).returned
      <+: ((Session.start C : Session T).run ops).accepted := by
  have h := (Session.Inv_run (Session.Inv_start hC) ops).2 hov
  exact ⟨h.2.2, ⟨_, h.2.2.symm⟩⟩

theorem fifo_witness :
    (4 : Nat) < SIZE_MOD ∧
    ((Session.start 4 : Session Int).run wraparound_test).accepted.length < SIZE_MOD ∧
    ((Session.start 4 : Session Int).run wraparound_test).returned = [1, 2, 3, 4, 5, 6] ∧
    ((Session.start 4 : Session Int).run wraparound_test).returned
      <+: ((Session.start 4 : Session Int).run wraparound_test).accepted :=
  ⟨by decide, by decide, by decide, (fifo 4 (by decide) wraparound_test (by decide)).2⟩

/-- C2: in every state that satisfies the representation invariant, `write(data, count)`
returns `min(count, available_write())` and stores exactly that many leading samples
of `data`: seen from the slot of the old write position the storage holds these
samples and then its old content, `write_pos_` advances by the returned count and
nothing else changes, so that (while the positions have not wrapped) the unread
samples are the old ones followed by the stored ones; a write to a full buffer
returns 0 and changes nothing. -/
theorem write_returns_min (rb : RingBuffer T) (h : rb.WF) (data : List T) :
    (rb.write data).2 = min data.length rb.available_write ∧
    (rb.write data).1.buffer_.length = rb.buffer_.length ∧
    (rb.write data).1.buffer_.rotate rb.write_pos_
      = data.take (rb.write data).2
          ++ (rb.buffer_.rotate rb.write_pos_).drop (rb.write data).2 ∧
    (rb.write data).1.write_pos_ = size_add rb.write_pos_ (rb.write data).2 ∧
    (rb.write data).1.read_pos_ = rb.read_pos_ ∧
    (rb.write data).1.capacity_ = rb.capacity_ ∧
    (rb.write data).1.available_read = rb.available_read + (rb.write data).2 ∧
    (rb.read_pos_ ≤ rb.write_pos_ → rb.write_pos_ + (rb.write data).2 < SIZE_MOD →
      (rb.write data).1.contents = rb.contents ++ data.take (rb.write data).2) ∧
    (rb.available_write = 0 → rb.write data = (rb, 0)) := by
  obtain ⟨hn, hcap, hrp, hwp, hlen, hrot⟩ := write_spec h data
  refine ⟨hn, hlen.trans h.2.1.symm, hrot, hwp, hrp, hcap, ?_,
    fun hle hov => contents_write h hle data hov, ?_⟩
  · obtain ⟨hc, -, hr, hw, hd⟩ := h
    have hav : rb.available_write = rb.capacity_ - size_sub rb.write_pos_ rb.read_pos_ :=
      size_sub_of_le hc hd
    have hle := Nat.min_le_right data.length rb.available_write
    show size_sub _ _ = size_sub _ _ + _
    rw [hwp, hrp, size_sub_size_add_left hw hr (by omega)]
  · intro h0
    have h0' : rb.available_write_at rb.write_pos_ rb.read_pos_ = 0 := h0
    simp [write, h0']

theorem write_returns_min_witness :
    full_buffer.WF ∧ full_buffer.available_write = 0 ∧
    (full_buffer.write [5]).2 = min [5].length full_buffer.available_write ∧
    full_buffer.write [5] = (full_buffer, 0) :=
  ⟨WF_write (WF_new (by decide)) _, by decide,
    (write_returns_min full_buffer (WF_write (WF_new (by decide)) _) [5]).1,
    (write_returns_min full_buffer (WF_write (WF_new (by decide)) _) [5]).2.2.2.2.2.2.2.2
      (by decide)⟩

/-- C3 (counterexample): after `2 ^ 62 - 1` rounds of writing and reading four samples
on a buffer of capacity 4 and one more write of four samples, `write_pos_` has wrapped
to 0 while `read_pos_` is `2 ^ 64 - 4`: `read_pos <= write_pos` fails. -/
theorem wrap_calls_positions :
    ((RingBuffer.new 4 : RingBuffer Int).calls wrap_calls).read_pos_ = 2 ^ 64 - 4 ∧
    ((RingBuffer.new 4 : RingBuffer Int).calls wrap_calls).write_pos_ = 0 ∧
    ¬ (((RingBuffer.new 4 : RingBuffer Int).calls wrap_calls).read_pos_
        ≤ ((RingBuffer.new 4 : RingBuffer Int).calls wrap_calls).write_pos_) := by
  have h0 : (RingBuffer.new 4 : RingBuffer Int).WF := WF_new (by decide)
  obtain ⟨h1, h2, h3, h4⟩ := full_rounds_spec (2 ^ 62 - 1) h0 rfl rfl (by decide)
  have e : (RingBuffer.new 4 : RingBuffer Int).calls wrap_calls
      = (((RingBuffer.new 4 : RingBuffer Int).calls
          (List.replicate (2 ^ 62 - 1) full_round).flatten).write [0, 0, 0, 0]).1 := by
    rw [wrap_calls, calls_append, calls_singleton, call]
  obtain ⟨hn, -, hrp, hwp, -, -⟩ := write_spec h1 [0, 0, 0, 0]
  generalize (RingBuffer.new 4 : RingBuffer Int).calls
    (List.replicate (2 ^ 62 - 1) full_round).flatten = st at *
  have hav : st.available_write = 4 := by
    show size_sub st.capacity_ (size_sub st.write_pos_ st.read_pos_) = 4
    rw [h2, h3, h4]; decide
  have hn' : (st.write [0, 0, 0, 0]).2 = 4 := by rw [hn, hav]; rfl
  have hr : (st.write [0, 0, 0, 0]).1.read_pos_ = 2 ^ 64 - 4 := by
    rw [hrp, h3]; decide
  have hw : (st.write [0, 0, 0, 0]).1.write_pos_ = 0 := by
    rw [hwp, hn', h4]; decide
  rw [e, hr, hw]
  exact ⟨rfl, rfl, by decide⟩

/-- C3 (amended): in every state reached from construction by `write`, `read`, `peek`
and `reset` calls the capacity is the one given at construction,
`write_pos - read_pos` in `size_t` arithmetic is at most the capacity, and
`available_read() + available_write() == capacity`; as long as no write has carried
`write_pos_` past `2 ^ 64`, also `read_pos <= write_pos` and
`write_pos - read_pos <= capacity` as plain numbers. -/
theorem positions_invariant [Inhabited T] (C : Nat) (hC : C < SIZE_MOD) (cs : List (Call T)) :
    ((RingBuffer.new C : RingBuffer T).calls cs).capacity = C ∧
    size_sub ((RingBuffer.new C : RingBuffer T).calls cs).write_pos_
        ((RingBuffer.new C : RingBuffer T).calls cs).read_pos_ ≤ C ∧
    ((RingBuffer.new C : RingBuffer T).calls cs).available_read
      + ((RingBuffer.new C : RingBuffer T).calls cs).available_write = C ∧
    (no_wrap (RingBuffer.new C : RingBuffer T) cs = true →
      ((RingBuffer.new C : RingBuffer T).calls cs).read_pos_
          ≤ ((RingBuffer.new C : RingBuffer T).calls cs).write_pos_ ∧
      ((RingBuffer.new C : RingBuffer T).calls cs).write_pos_
          - ((RingBuffer.new C : RingBuffer T).calls cs).read_pos_ ≤ C) := by
  have h0 : (RingBuffer.new C : RingBuffer T).WF := WF_new hC
  have hwf := WF_calls h0 cs
  have hcap : ((RingBuffer.new C : RingBuffer T).calls cs).capacity_ = C := capacity_calls h0 cs
  have hd := hwf.2.2.2.2
  rw [hcap] at hd
  refine ⟨hcap, hd, ?_, fun hnw => ?_⟩
  · rw [available_sum hwf]; exact hcap
  · have hle := ordered_calls h0 (Nat.le_refl 0) cs hnw
    refine ⟨hle, ?_⟩
    have := size_sub_of_le hwf.2.2.2.1 hle
    omega

theorem positions_invariant_witness :
    (4 : Nat) < SIZE_MOD ∧
    no_wrap (RingBuffer.new 4 : RingBuffer Int) full_round = true ∧
    ((RingBuffer.new 4 : RingBuffer Int).calls full_round).read_pos_
      ≤ ((RingBuffer.new 4 : RingBuffer Int).calls full_round).write_pos_ :=
  ⟨by decide, by decide,
    ((positions_invariant 4 (by decide) full_round).2.2.2 (by decide)).1⟩

end RingBuffer

/-! ### The dynamic programme and the recursive definition -/

variable {α : Type} [DecidableEq α]

theorem lev_nil_left (b : List α) : lev [] b = b.length := by
  rw [lev]

theorem lev_nil_right (a : List α) : lev a [] = a.length := by
  cases a <;> simp [lev]

theorem lev_cons_cons (x y : α) (a b : List α) :
    lev (x :: a) (y :: b)
      = min (lev a (y :: b) + 1) (min (lev (x :: a) b + 1) (lev a b + if x = y then 0 else 1)) := by
  rw [lev]


/-- The recurrence read from the right-hand ends -/
theorem lev_snoc_snoc (a b : List α) (u v : α) :
    lev (a ++ [u]) (b ++ [v])
      = min (lev a (b ++ [v]) + 1)
          (min (lev (a ++ [u]) b + 1) (lev a b + if u = v then 0 else 1)) := by
  induction a generalizing b with
  | nil =>
    induction b with
    | nil =>
      simp only [List.nil_append, lev_cons_cons, lev_nil_left, lev_nil_right, List.length_cons,
        List.length_nil]
    | cons y b ihb =>
      have e1 := lev_cons_cons u y [] (b ++ [v])
      have e2 := lev_cons_cons u y [] b
      simp only [List.nil_append, List.cons_append, lev_nil_left, List.length_cons,
        List.length_append, List.length_nil] at ihb e1 e2 ⊢
      rw [e1, ihb, e2]
      omega
  | cons x a iha =>
    induction b with
    | nil =>
      have e1 := lev_cons_cons x v (a ++ [u]) []
      have e2 := lev_cons_cons x v a []
      have i1 := iha []
      simp only [List.nil_append, List.cons_append, lev_nil_right, List.length_cons,
        List.length_append, List.length_nil] at e1 e2 i1 ⊢
      rw [e1, i1, e2]
      omega
    | cons y b ihb =>
      have e0 := lev_cons_cons x y (a ++ [u]) (b ++ [v])
      have e1 := lev_cons_cons x y a (b ++ [v])
      have e2 := lev_cons_cons x y (a ++ [u]) b
      have e3 := lev_cons_cons x y a b
      have i1 := iha (y :: b)
      have i2 := iha b
      simp only [List.cons_append] at e0 e1 e2 e3 i1 i2 ihb ⊢
      generalize (if x = y then 0 else 1) = cxy at *
      generalize (if u = v then 0 else 1) = cuv at *
      generalize lev (x :: (a ++ [u])) (y :: (b ++ [v])) = t0 at *
      generalize lev (a ++ [u]) (y :: (b ++ [v])) = t1 at *
      generalize lev (x :: (a ++ [u])) (b ++ [v]) = t2 at *
      generalize lev (a ++ [u]) (b ++ [v]) = t3 at *
      generalize lev (x :: a) (y :: (b ++ [v])) = t4 at *
      generalize lev (x :: (a ++ [u])) (y :: b) = t5 at *
      generalize lev (x :: a) (y :: b) = t6 at *
      generalize lev a (y :: (b ++ [v])) = t7 at *
      generalize lev (a ++ [u]) (y :: b) = t8 at *
      generalize lev a (y :: b) = t9 at *
      generalize lev (x :: a) (b ++ [v]) = t10 at *
      generalize lev (x :: (a ++ [u])) b = t11 at *
      generalize lev (x :: a) b = t12 at *
      generalize lev a (b ++ [v]) = t13 at *
      generalize lev (a ++ [u]) b = t14 at *
      generalize lev a b = t15 at *
      clear iha
      subst e0 e1 e2 e3 i1 i2 ihb
      apply le_antisymm <;> simp only [le_min_iff, min_le_iff] <;> omega

theorem getD_set (l : List Nat) (i j x : Nat) :
    (l.set i x).getD j 0 = if i = j ∧ i < l.length then x else l.getD j 0 := by
  simp only [List.getD_eq_getElem?_getD, List.getElem?_set]
  by_cases hij : i = j
  · subst hij
    by_cases hi : i < l.length
    · simp [hi]
    · simp [hi, List.getElem?_eq_none (Nat.le_of_not_lt hi)]
  · simp [hij]

theorem take_succ_getD (l : List Nat) (k : Nat) (h : k < l.length) :
    l.take (k + 1) = l.take k ++ [l.getD k 0] := by
  rw [List.take_succ, List.getD_eq_getElem?_getD, List.getElem?_eq_getElem h]
  rfl

/-- Invariant of the initialisation loop `prev[j] = j`. -/
theorem levenshtein_init (n k : Nat) (hk : k ≤ n + 1) :
    ((List.range k).foldl (fun p j => p.set j j) (List.replicate (n + 1) 0)).length = n + 1 ∧
    ∀ j, j < k →
      ((List.range k).foldl (fun p j => p.set j j) (List.replicate (n + 1) 0)).getD j 0 = j := by
  induction k with
  | zero => exact ⟨by simp, fun j hj => absurd hj (Nat.not_lt_zero j)⟩
  | succ k ih =>
    obtain ⟨hl, hv⟩ := ih (by omega)
    rw [List.range_succ, List.foldl_append]
    simp only [List.foldl_cons, List.foldl_nil]
    refine ⟨by rw [List.length_set, hl], fun j hj => ?_⟩
    rw [getD_set, hl]
    by_cases hjk : k = j
    · simp [hjk]; omega
    · rw [if_neg (by tauto)]
      exact hv j (by omega)

/-- Invariant of the inner loop: after columns `1 .. k` of row `i`. -/
theorem levenshtein_inner (a b : CppString) (prev curr : List Nat) (i : Nat)
    (hi1 : 1 ≤ i) (hi : i ≤ a.length)
    (hcl : curr.length = b.length + 1)
    (hprev : ∀ j, j ≤ b.length → prev.getD j 0 = lev (a.take (i - 1)) (b.take j))
    (k : Nat) (hk : k ≤ b.length) :
    ((List.range' 1 k).foldl (levenshtein_cell a b prev i) (curr.set 0 i)).length
      = b.length + 1 ∧
    ∀ j, j ≤ k →
      ((List.range' 1 k).foldl (levenshtein_cell a b prev i) (curr.set 0 i)).getD j 0
        = lev (a.take i) (b.take j) := by
  induction k with
  | zero =>
    refine ⟨by simp [hcl], fun j hj => ?_⟩
    have : j = 0 := by omega
    subst this
    simp only [List.range'_zero, List.foldl_nil, getD_set, hcl, List.take_zero, lev_nil_right,
      List.length_take]
    simp; omega
  | succ k ih =>
    obtain ⟨hl, hv⟩ := ih (by omega)
    rw [List.range'_concat, List.foldl_append, Nat.one_mul]
    simp only [List.foldl_cons, List.foldl_nil]
    generalize (List.range' 1 k).foldl (levenshtein_cell a b prev i) (curr.set 0 i) = row at *
    unfold levenshtein_cell
    refine ⟨by rw [List.length_set, hl], fun j hj => ?_⟩
    rw [getD_set, hl]
    by_cases hjk : 1 + k = j
    · subst hjk
      rw [if_pos ⟨rfl, by omega⟩]
      have e1 : 1 + k - 1 = k := by omega
      rw [e1, hprev (1 + k) (by omega), hprev k (by omega), hv k (Nat.le_refl k)]
      have ha : a.take i = a.take (i - 1) ++ [a.getD (i - 1) 0] := by
        have := take_succ_getD a (i - 1) (by omega)
        rwa [Nat.sub_add_cancel hi1] at this
      have hb : b.take (1 + k) = b.take k ++ [b.getD k 0] := by
        rw [Nat.add_comm]; exact take_succ_getD b k (by omega)
      rw [ha, hb, lev_snoc_snoc, ← hb]
    · rw [if_neg (by tauto)]
      exact hv j (by omega)

/-- Invariant of the outer loop: after rows `1 .. i`. -/
theorem levenshtein_outer (a b : CppString) (i : Nat) (hi : i ≤ a.length) :
    let prev := (List.range (b.length + 1)).foldl (fun p j => p.set j j)
      (List.replicate (b.length + 1) 0)
    let curr := List.replicate (b.length + 1) 0
    let rows := (List.range' 1 i).foldl (levenshtein_row a b) (prev, curr)
    rows.1.length = b.length + 1 ∧ rows.2.length = b.length + 1 ∧
    ∀ j, j ≤ b.length → rows.1.getD j 0 = lev (a.take i) (b.take j) := by
  intro prev curr
  induction i with
  | zero =>
    obtain ⟨hl, hv⟩ := levenshtein_init b.length (b.length + 1) (Nat.le_refl _)
    refine ⟨hl, by simp [curr], fun j hj => ?_⟩
    simp only [List.range'_zero, List.foldl_nil, List.take_zero, lev_nil_left, List.length_take]
    rw [hv j (by omega)]; omega
  | succ i ih =>
    obtain ⟨h1, h2, h3⟩ := ih (by omega)
    simp only [List.range'_concat, List.foldl_append, List.foldl_cons, List.foldl_nil, Nat.one_mul]
    generalize (List.range' 1 i).foldl (levenshtein_row a b) (prev, curr) = rows at *
    have key := levenshtein_inner a b rows.1 rows.2 (1 + i) (by omega) (by omega) h2
      (by simpa using h3) b.length (Nat.le_refl _)
    refine ⟨key.1, h1, fun j hj => ?_⟩
    rw [Nat.add_comm i 1]
    exact key.2 j hj

theorem levenshtein_eq_lev (a b : CppString) : levenshtein a b = lev a b := by
  have h := (levenshtein_outer a b a.length (Nat.le_refl _)).2.2 b.length (Nat.le_refl _)
  simpa [levenshtein] using h


/-! ### Claims on the decision policy -/

/-- Some edit script has `lev a b` edits. -/
theorem lev_edits (a b : List α) : Edits a b (lev a b) := by
  induction a generalizing b with
  | nil =>
    induction b with
    | nil => rw [lev_nil_left]; exact Edits.done
    | cons y b ihb =>
      rw [lev_nil_left] at ihb ⊢
      exact Edits.insert y ihb
  | cons x a iha =>
    induction b with
    | nil =>
      have h := iha []
      rw [lev_nil_right] at h ⊢
      exact Edits.delete x h
    | cons y b ihb =>
      have h1 := Edits.delete x (iha (y :: b))
      have h2 := Edits.insert y ihb
      have hmin := lev_cons_cons x y a b
      by_cases hxy : x = y
      · subst hxy
        have h3 := Edits.keep x (iha b)
        rw [if_pos rfl] at hmin
        rcases (by omega : lev (x :: a) (x :: b) = lev a (x :: b) + 1
            ∨ lev (x :: a) (x :: b) = lev (x :: a) b + 1
            ∨ lev (x :: a) (x :: b) = lev a b) with e | e | e
        · rw [e]; exact h1
        · rw [e]; exact h2
        · rw [e]; exact h3
      · have h3 := Edits.substitute x y (iha b)
        rw [if_neg hxy] at hmin
        rcases (by omega : lev (x :: a) (y :: b) = lev a (y :: b) + 1
            ∨ lev (x :: a) (y :: b) = lev (x :: a) b + 1
            ∨ lev (x :: a) (y :: b) = lev a b + 1) with e | e | e
        · rw [e]; exact h1
        · rw [e]; exact h2
        · rw [e]; exact h3

/-- No edit script has fewer than `lev a b` edits. -/
theorem lev_le_of_edits {a b : List α} {n : Nat} (h : Edits a b n) : lev a b ≤ n := by
  induction h with
  | done => rw [lev_nil_left]; exact Nat.le_refl 0
  | keep x _ ih =>
    rw [lev_cons_cons, if_pos rfl]
    omega
  | substitute x y _ ih =>
    rw [lev_cons_cons]
    split_ifs <;> omega
  | @delete x a b n _ ih =>
    cases b with
    | nil => rw [lev_nil_right] at ih ⊢; simp only [List.length_cons]; omega
    | cons y b => rw [lev_cons_cons]; omega
  | @insert y a b n _ ih =>
    cases a with
    | nil => rw [lev_nil_left] at ih ⊢; simp only [List.length_cons]; omega
    | cons x a => rw [lev_cons_cons]; omega

theorem lev_comm {α : Type} [DecidableEq α] (a b : List α) : lev a b = lev b a := by
  induction a generalizing b with
  | nil => rw [lev_nil_left, lev_nil_right]
  | cons x a iha =>
    induction b with
    | nil => rw [lev_nil_left, lev_nil_right]
    | cons y b ihb =>
      rw [lev_cons_cons, lev_cons_cons, iha (y :: b), ihb, iha b]
      have hc : (if x = y then 0 else 1) = (if y = x then 0 else 1) := by
        by_cases h : x = y
        · simp [h]
        · simp [h, Ne.symm h]
      rw [hc]
      apply le_antisymm <;> simp only [le_min_iff, min_le_iff] <;> omega

/-- C5: `levenshtein` (the two-row dynamic programme) computes the Levenshtein distance
`lev` of the standard recursive definition, which is the least number of single-unit
insertions, deletions and substitutions that turn `a` into `b`;
`edit_distance_ratio a b` is that distance divided by `max (len a) (len b)`, and the
ratio of two empty strings is 0. -/
theorem edit_distance_ratio_eq (a b : CppString) :
    levenshtein a b = lev a b ∧
    (Edits a b (lev a b) ∧ ∀ n, Edits a b n → lev a b ≤ n) ∧
    (¬ (a = [] ∧ b = []) →
      edit_distance_ratio a b = (lev a b : ℚ) / (max a.length b.length : ℚ)) ∧
    (a = [] → b = [] → edit_distance_ratio a b = 0) := by
  refine ⟨levenshtein_eq_lev a b, ⟨lev_edits a b, fun n h => lev_le_of_edits h⟩,
    fun h => ?_, fun ha hb => ?_⟩
  · unfold edit_distance_ratio
    rw [if_neg h, levenshtein_eq_lev]
    push_cast
    rfl
  · unfold edit_distance_ratio
    rw [if_pos ⟨ha, hb⟩]

/-- C6: the ratio is symmetric, `edit_distance_ratio a b = edit_distance_ratio b a`. -/
theorem edit_distance_ratio_comm (a b : CppString) :
    edit_distance_ratio a b = edit_distance_ratio b a := by
  unfold edit_distance_ratio
  rw [levenshtein_eq_lev, levenshtein_eq_lev, lev_comm a b, Nat.max_comm a.length b.length]
  by_cases h : a = [] ∧ b = []
  · rw [if_pos h, if_pos h.symm]
  · rw [if_neg h, if_neg (fun h' => h h'.symm)]

/-! ### Claims on the orchestrator -/

namespace TranscriptionOrchestrator

/-- The states and effects of the tail "No refinement needed or available". -/
theorem emit_fast_spec (o : TranscriptionOrchestrator) (calls : List (List AudioSample)) :
    (o.emit_fast calls).1.was_refined_ = false ∧
    (o.emit_fast calls).1.vosk_text_ = o.vosk_text_ ∧
    (o.emit_fast calls).2.refine_calls = calls ∧
    (o.emit_fast calls).2.refined_calls
      = if o.on_refined_ then [(o.vosk_text_, o.vosk_text_)] else [] :=
  ⟨rfl, rfl, rfl, rfl⟩

/-- The two outcomes of `on_recording_stop`: either the refinement succeeds and passes
the gate, or the fast text is emitted. -/
theorem stop_cases (o : TranscriptionOrchestrator) (engine_final : CppString)
    (audio : List AudioSample) :
    (∃ slow, o.RefineSucceeds audio slow ∧
      (edit_distance_ratio (o.finalize_fast engine_final).vosk_text_ slow
          ≥ o.config_.refinement_threshold ∧ slow ≠ []) ∧
      o.on_recording_stop engine_final audio
        = ({ o.finalize_fast engine_final with was_refined_ := true },
            { refine_calls := [audio]
              refined_calls :=
                if o.on_refined_ then [((o.finalize_fast engine_final).vosk_text_, slow)]
                else [] })) ∨
    ((∀ slow, o.RefineSucceeds audio slow →
        ¬ (edit_distance_ratio (o.finalize_fast engine_final).vosk_text_ slow
            ≥ o.config_.refinement_threshold ∧ slow ≠ [])) ∧
      ∃ calls, o.on_recording_stop engine_final audio
          = (o.finalize_fast engine_final).emit_fast calls ∧
        ((∃ slow, o.RefineSucceeds audio slow) → calls = [audio]) ∧
        ((∀ whisper, o.RefineAttempted audio whisper → False) → calls = [])) := by
  have e1 : (o.finalize_fast engine_final).whisper_enabled = o.whisper_enabled := rfl
  have e2 : (o.finalize_fast engine_final).config_ = o.config_ := rfl
  have e3 : (o.finalize_fast engine_final).whisper_ = o.whisper_ := rfl
  have e4 : (o.finalize_fast engine_final).on_refined_ = o.on_refined_ := rfl
  unfold on_recording_stop
  simp only [e1, e2, e3, e4]
  generalize o.finalize_fast engine_final = o1
  by_cases hen : o.whisper_enabled = true
  swap
  · right
    refine ⟨fun slow h => absurd h.1 hen, [], by simp [hen], fun ⟨slow, h⟩ => absurd h.1 hen,
      fun _ => rfl⟩
  by_cases hcfg : o.config_.enable_whisper_refinement = true
  swap
  · right
    refine ⟨fun slow h => absurd h.2.1 hcfg, [], by simp [hcfg],
      fun ⟨slow, h⟩ => absurd h.2.1 hcfg, fun _ => rfl⟩
  cases hw : o.whisper_ with
  | none =>
    right
    refine ⟨?_, [], by simp [hen, hcfg], ?_, fun _ => rfl⟩
    · rintro slow ⟨-, -, whisper, hw', -⟩
      rw [hw] at hw'; cases hw'
    · rintro ⟨slow, -, -, whisper, hw', -⟩
      rw [hw] at hw'; cases hw'
  | some whisper =>
    by_cases hinit : whisper.is_initialized = true
    swap
    · right
      refine ⟨?_, [], by simp [hen, hcfg, hinit], ?_, fun _ => rfl⟩
      · rintro slow ⟨-, -, whisper', hw', hinit', -⟩
        rw [hw] at hw'; cases hw'; exact absurd hinit' hinit
      · rintro ⟨slow, -, -, whisper', hw', hinit', -⟩
        rw [hw] at hw'; cases hw'; exact absurd hinit' hinit
    by_cases haudio : audio = []
    · right
      refine ⟨?_, [], by simp [hen, hcfg, hinit, haudio], ?_, fun _ => rfl⟩
      · rintro slow ⟨-, -, whisper', -, -, haudio', -⟩
        exact absurd haudio haudio'
      · rintro ⟨slow, -, -, whisper', -, -, haudio', -⟩
        exact absurd haudio haudio'
    have hne : audio.isEmpty = false := by
      cases audio with
      | nil => exact absurd rfl haudio
      | cons x xs => rfl
    have hatt : o.RefineAttempted audio whisper := ⟨hen, hcfg, hw, hinit, haudio⟩
    cases hok : whisper.refine audio with
    | error e =>
      right
      refine ⟨?_, [audio], by simp [hen, hcfg, hinit, hne, hok], fun _ => rfl,
        fun h => (h whisper hatt).elim⟩
      rintro slow ⟨-, -, whisper', hw', -, -, hok'⟩
      rw [hw] at hw'; cases hw'; rw [hok] at hok'; cases hok'
    | ok slow =>
      have huniq : ∀ slow', o.RefineSucceeds audio slow' → slow' = slow := by
        rintro slow' ⟨-, -, whisper', hw', -, -, hok'⟩
        rw [hw] at hw'; cases hw'; rw [hok] at hok'; cases hok'; rfl
      have hsucc : o.RefineSucceeds audio slow := ⟨hen, hcfg, whisper, hw, hinit, haudio, hok⟩
      by_cases hc : edit_distance_ratio o1.vosk_text_ slow ≥ o.config_.refinement_threshold
          ∧ slow ≠ []
      · left
        refine ⟨slow, hsucc, hc, ?_⟩
        simp only [hen, hcfg, hinit, hne, hok, Bool.and_self, Bool.not_false, if_true]
        rw [if_pos hc]
      · right
        refine ⟨fun slow' h => by rw [huniq slow' h]; exact hc, [audio], ?_, fun _ => rfl,
          fun h => (h whisper hatt).elim⟩
        simp only [hen, hcfg, hinit, hne, hok, Bool.and_self, Bool.not_false, if_true]
        rw [if_neg hc]

theorem RefineSucceeds_unique {o : TranscriptionOrchestrator} {audio : List AudioSample}
    {s₁ s₂ : CppString} (h₁ : o.RefineSucceeds audio s₁) (h₂ : o.RefineSucceeds audio s₂) :
    s₁ = s₂ := by
  obtain ⟨-, -, w₁, hw₁, -, -, hok₁⟩ := h₁
  obtain ⟨-, -, w₂, hw₂, -, -, hok₂⟩ := h₂
  rw [hw₁] at hw₂
  cases hw₂
  rw [hok₁] at hok₂
  cases hok₂
  rfl

/-- C4: when `on_recording_stop` runs the slow recognizer and it succeeds with text
`slow`, `was_refined()` becomes true exactly if
`edit_distance_ratio(fast, slow) >= refinement_threshold` and `slow` is non-empty, and
then the result callback receives `(fast, slow)`; in every other case `was_refined()`
is false and the callback receives `(fast, fast)`. Here `fast` is `vosk_result()`
after the call. -/
theorem stop_decision (o : TranscriptionOrchestrator) (engine_final : CppString)
    (audio : List AudioSample) (hcb : o.on_refined_ = true) :
    (∀ slow, o.RefineSucceeds audio slow →
      ((o.on_recording_stop engine_final audio).1.was_refined = true ↔
        (edit_distance_ratio (o.on_recording_stop engine_final audio).1.vosk_result slow
            ≥ o.config_.refinement_threshold ∧ slow ≠ [])) ∧
      ((o.on_recording_stop engine_final audio).1.was_refined = true →
        (o.on_recording_stop engine_final audio).2.refined_calls
          = [((o.on_recording_stop engine_final audio).1.vosk_result, slow)])) ∧
    ((o.on_recording_stop engine_final audio).1.was_refined = false →
      (o.on_recording_stop engine_final audio).2.refined_calls
        = [((o.on_recording_stop engine_final audio).1.vosk_result,
            (o.on_recording_stop engine_final audio).1.vosk_result)]) ∧
    ((¬ ∃ slow, o.RefineSucceeds audio slow) →
      (o.on_recording_stop engine_final audio).1.was_refined = false) := by
  rcases stop_cases o engine_final audio with ⟨slow₀, hs, hc, heq⟩ | ⟨hno, calls, heq, -, -⟩
  · rw [heq]
    refine ⟨fun slow h => ?_, fun h => ?_, fun h => absurd ⟨slow₀, hs⟩ h⟩
    · rw [RefineSucceeds_unique h hs]
      exact ⟨⟨fun _ => hc, fun _ => rfl⟩, fun _ => by simp [hcb, vosk_result]⟩
    · exact absurd h (by simp [was_refined])
  · rw [heq]
    refine ⟨fun slow h => ⟨⟨fun h' => ?_, fun h' => absurd h' (hno slow h)⟩, fun h' => ?_⟩,
      fun _ => ?_, fun _ => rfl⟩
    · exact absurd h' (by simp [was_refined, emit_fast])
    · exact absurd h' (by simp [was_refined, emit_fast])
    · have e : (o.finalize_fast engine_final).on_refined_ = true := hcb
      simp [emit_fast, e, vosk_result]

theorem stop_decision_witness :
    (orchestrator_refining text_ho).on_refined_ = true ∧
    (orchestrator_refining text_ho).RefineSucceeds [0] text_ho ∧
    (((orchestrator_refining text_ho).on_recording_stop text_hi [0]).1.was_refined = true ↔
      (edit_distance_ratio
          ((orchestrator_refining text_ho).on_recording_stop text_hi [0]).1.vosk_result text_ho
          ≥ (orchestrator_refining text_ho).config_.refinement_threshold ∧ text_ho ≠ [])) :=
  ⟨rfl, ⟨rfl, rfl, _, rfl, rfl, by decide, rfl⟩,
    ((stop_decision (orchestrator_refining text_ho) text_hi [0] rfl).1 text_ho
      ⟨rfl, rfl, _, rfl, rfl, by decide, rfl⟩).1⟩

/-- C10: with a result callback registered, one call of `on_recording_stop` invokes it
exactly once, with `(fast_text, authoritative_text)`: the authoritative text is the
slow text when the refinement was applied and the fast text on every other path
(refinement rejected, failed, or not run). -/
theorem stop_invokes_callback_once (o : TranscriptionOrchestrator)
    (engine_final : CppString) (audio : List AudioSample) (hcb : o.on_refined_ = true) :
    ∃ authoritative,
      (o.on_recording_stop engine_final audio).2.refined_calls
        = [((o.on_recording_stop engine_final audio).1.vosk_result, authoritative)] ∧
      ((o.on_recording_stop engine_final audio).1.was_refined = true →
        o.RefineSucceeds audio authoritative) ∧
      ((o.on_recording_stop engine_final audio).1.was_refined = false →
        authoritative = (o.on_recording_stop engine_final audio).1.vosk_result) := by
  rcases stop_cases o engine_final audio with ⟨slow₀, hs, hc, heq⟩ | ⟨hno, calls, heq, -, -⟩
  · rw [heq]
    exact ⟨slow₀, by simp [hcb, vosk_result], fun _ => hs,
      fun h => absurd h (by simp [was_refined])⟩
  · rw [heq]
    have e : (o.finalize_fast engine_final).on_refined_ = true := hcb
    exact ⟨(o.finalize_fast engine_final).vosk_text_, by simp [emit_fast, e, vosk_result],
      fun h => absurd h (by simp [was_refined, emit_fast]), fun _ => rfl⟩

theorem stop_invokes_callback_once_witness :
    orchestrator_ready.on_refined_ = true ∧
    (orchestrator_ready.on_recording_stop text_hi []).2.refined_calls.length = 1 :=
  ⟨rfl, by
    obtain ⟨authoritative, h, -⟩ :=
      stop_invokes_callback_once orchestrator_ready text_hi [] rfl
    rw [h]
    rfl⟩

/-- C7 (counterexample): a second `on_recording_start` without a stop resets the
recognizer a second time, and it clears a fast text received in between. -/
theorem second_start_not_noop :
    orchestrator_ready.on_recording_start.vosk_.recognizer_resets = 1 ∧
    orchestrator_ready.on_recording_start.on_recording_start.vosk_.recognizer_resets = 2 ∧
    (orchestrator_ready.on_recording_start.stream_chunk (.utterance text_hi)).1.vosk_text_
      = text_hi ∧
    (orchestrator_ready.on_recording_start.stream_chunk
      (.utterance text_hi)).1.on_recording_start.vosk_text_ = [] := by
  decide

/-- C7 (amended): a second `on_recording_start` without a stop starts no further
streaming thread, but it clears the session state and resets the recognizer again;
the guard against a second start is in `Application::on_hotkey_press`, which does
nothing while `recording_` is set. -/
theorem second_start_effect (o : TranscriptionOrchestrator) (app : Application) :
    o.on_recording_start.on_recording_start.vosk_.stream_threads
      = o.on_recording_start.vosk_.stream_threads ∧
    o.on_recording_start.on_recording_start.vosk_.streaming_
      = o.on_recording_start.vosk_.streaming_ ∧
    o.on_recording_start.on_recording_start.vosk_text_ = [] ∧
    o.on_recording_start.on_recording_start.was_refined_ = false ∧
    o.on_recording_start.on_recording_start.vosk_.last_partial_ = [] ∧
    (o.vosk_.recognizer_ = true →
      o.on_recording_start.on_recording_start.vosk_.recognizer_resets
        = o.on_recording_start.vosk_.recognizer_resets + 1) ∧
    (app.recording_ = true → app.on_hotkey_press = app) := by
  refine ⟨?_, ?_, rfl, rfl, ?_, ?_, ?_⟩
  · simp only [on_recording_start, VoskRecognitionService.start_streaming,
      VoskRecognitionService.reset]
    cases o.vosk_.ring_buffer_ <;> cases o.vosk_.streaming_ <;> simp
  · simp only [on_recording_start, VoskRecognitionService.start_streaming,
      VoskRecognitionService.reset]
    cases o.vosk_.ring_buffer_ <;> cases o.vosk_.streaming_ <;> simp
  · simp only [on_recording_start, VoskRecognitionService.start_streaming,
      VoskRecognitionService.reset]
    cases o.vosk_.ring_buffer_ <;> cases o.vosk_.streaming_ <;> simp
  · intro hr
    simp only [on_recording_start, VoskRecognitionService.start_streaming,
      VoskRecognitionService.reset, hr]
    cases o.vosk_.ring_buffer_ <;> cases o.vosk_.streaming_ <;> simp
  · intro hr
    simp [Application.on_hotkey_press, hr]

/-- C8 (counterexample): `on_recording_stop` called while no recording is active invokes
the result callback: before any start with `("", "")`, and after a completed cycle
again with the text of that cycle; after a refined cycle it also clears
`was_refined_`. -/
theorem stop_while_idle_not_noop :
    (orchestrator_ready.on_recording_stop [] []).2.refined_calls = [([], [])] ∧
    ((orchestrator_ready.on_recording_start.on_recording_stop text_hi []).1.on_recording_stop
      [] []).2.refined_calls = [(text_hi, text_hi)] ∧
    ((orchestrator_refining text_ho).on_recording_start.on_recording_stop
      text_hi [0]).1.was_refined_ = true ∧
    (((orchestrator_refining text_ho).on_recording_start.on_recording_stop
      text_hi [0]).1.on_recording_stop [] []).1.was_refined_ = false := by
  decide!

/-- C8 (amended): `Application::on_hotkey_release` while no recording is active
(`recording_` false) is a no-op: the application state, the orchestrator in it
included, is unchanged and no result callback is invoked. The guard is in the
application: `on_recording_stop` itself, in whatever state it is called with a result
callback registered, invokes that callback. -/
theorem release_while_idle (app : Application) (engine_final : CppString) (now : String)
    (h : app.recording_ = false) :
    app.on_hotkey_release engine_final now = (app, []) ∧
    ∀ (o : TranscriptionOrchestrator) (audio : List AudioSample), o.on_refined_ = true →
      (o.on_recording_stop engine_final audio).2.refined_calls ≠ [] := by
  refine ⟨by simp [Application.on_hotkey_release, h], fun o audio hcb => ?_⟩
  rcases stop_cases o engine_final audio with ⟨slow₀, -, -, heq⟩ | ⟨-, calls, heq, -, -⟩
  · rw [heq]
    simp [hcb]
  · rw [heq]
    have e : (o.finalize_fast engine_final).on_refined_ = true := hcb
    simp [emit_fast, e]

theorem release_while_idle_witness :
    application_idle.recording_ = false ∧
    application_idle.on_hotkey_release text_hi "2026-01-01T00:00:00" = (application_idle, []) :=
  ⟨rfl, (release_while_idle application_idle text_hi "2026-01-01T00:00:00" rfl).1⟩

/-- C9 (counterexample): in a recording cycle where the fast text and the slow text are
both empty, `on_recording_stop` still invokes the result callback, with `("", "")`. -/
theorem empty_texts_invoke_callback :
    ((orchestrator_refining []).on_recording_start.on_recording_stop [] [0]).1.vosk_result = [] ∧
    (whisper_saying []).refine [0] = .ok [] ∧
    ((orchestrator_refining []).on_recording_start.on_recording_stop [] [0]).2.refine_calls
      = [[0]] ∧
    ((orchestrator_refining []).on_recording_start.on_recording_stop [] [0]).2.refined_calls
      = [([], [])] := by
  refine ⟨by decide!, rfl, by decide!, by decide!⟩

/-- The subscriber drops an empty result. -/
theorem on_refined_text_empty (app : Application) (now : String) :
    app.on_refined_text now [] [] = app := by
  simp [Application.on_refined_text]

/-- C9 (amended): when the fast text and the slow text of a recording cycle are both
empty, `on_recording_stop` invokes the registered result callback once with
`("", "")`, and the subscriber `Application::on_refined_text` returns without
appending a history record, saving the store or injecting text. -/
theorem empty_result_leaves_no_record (app : Application) (engine_final : CppString)
    (now : String)
    (hfast : (app.orchestrator_.on_recording_stop engine_final app.release_audio).1.vosk_result
      = [])
    (hslow : ∀ slow, app.orchestrator_.RefineSucceeds app.release_audio slow → slow = []) :
    (app.orchestrator_.on_refined_ = true →
      (app.orchestrator_.on_recording_stop engine_final app.release_audio).2.refined_calls
        = [([], [])]) ∧
    (app.on_hotkey_release engine_final now).1.transcription_store_
      = app.transcription_store_ ∧
    (app.on_hotkey_release engine_final now).1.store_saves = app.store_saves ∧
    (app.on_hotkey_release engine_final now).1.injection_ = app.injection_ := by
  have key : (app.orchestrator_.on_recording_stop engine_final app.release_audio).2.refined_calls
      = if app.orchestrator_.on_refined_ then [([], [])] else [] := by
    rcases stop_cases app.orchestrator_ engine_final app.release_audio with
      ⟨slow₀, hs, hc, heq⟩ | ⟨hno, calls, heq, -, -⟩
    · exact absurd (hslow slow₀ hs) hc.2
    · rw [heq] at hfast ⊢
      have e : (app.orchestrator_.finalize_fast engine_final).vosk_text_ = [] := hfast
      simp only [emit_fast, e]
      rfl
  refine ⟨fun hcb => by rw [key, if_pos hcb], ?_⟩
  unfold Application.on_hotkey_release
  by_cases hr : app.recording_ = true
  · simp only [hr, Bool.not_true, Bool.false_eq_true, if_false, key]
    by_cases hcb : app.orchestrator_.on_refined_ = true
    · simp [hcb, on_refined_text_empty]
    · simp [hcb]
  · simp [hr]

theorem empty_result_leaves_no_record_witness :
    (application_recording.orchestrator_.on_recording_stop []
      application_recording.release_audio).1.vosk_result = [] ∧
    (∀ slow, application_recording.orchestrator_.RefineSucceeds
      application_recording.release_audio slow → slow = []) ∧
    (application_recording.on_hotkey_release [] "2026-01-01T00:00:00").1.transcription_store_
      = application_recording.transcription_store_ :=
  ⟨by decide, fun _ h => absurd h.1 (by decide),
    (empty_result_leaves_no_record application_recording [] "2026-01-01T00:00:00" (by decide)
      (fun _ h => absurd h.1 (by decide))).2.1⟩

end TranscriptionOrchestrator

/-! ### Further claims on the ring buffer -/

namespace RingBuffer

/-- C15: in every state that satisfies the representation invariant, `read(out, count)`
returns `min(count, available_read())` and copies that many samples: the oldest
unread ones, in storage order from the slot of the read position; `available_read()`
decreases by the returned count, `read_pos_` advances by it and nothing else changes
(while the positions have not wrapped, the unread samples are the returned ones
followed by those still unread); when nothing is available it returns 0 and changes
nothing. -/
theorem read_returns_min (rb : RingBuffer T) (h : rb.WF) (count : Nat) :
    (rb.read count).2.1 = min count rb.available_read ∧
    (rb.read count).2.2.length = (rb.read count).2.1 ∧
    (rb.read count).2.2 = (rb.buffer_.rotate rb.read_pos_).take (rb.read count).2.1 ∧
    (rb.read count).2.2 = rb.contents.take (rb.read count).2.1 ∧
    (rb.read count).1.available_read = rb.available_read - (rb.read count).2.1 ∧
    (rb.read count).1.read_pos_ = size_add rb.read_pos_ (rb.read count).2.1 ∧
    (rb.read count).1.write_pos_ = rb.write_pos_ ∧
    (rb.read count).1.buffer_ = rb.buffer_ ∧
    (rb.read count).1.capacity_ = rb.capacity_ ∧
    (rb.read_pos_ ≤ rb.write_pos_ →
      rb.contents = (rb.read count).2.2 ++ (rb.read count).1.contents) ∧
    (rb.available_read = 0 → rb.read count = (rb, 0, [])) := by
  obtain ⟨hn, hcap, hbuf, hwp, hrp, hout⟩ := read_spec h count
  have hle : (rb.read count).2.1 ≤ rb.available_read := hn ▸ Nat.min_le_right _ _
  have hav : rb.available_read ≤ rb.capacity_ := h.2.2.2.2
  refine ⟨hn, ?_, hout, ?_, ?_, hrp, hwp, hbuf, hcap, fun hle' => contents_read h hle' count, ?_⟩
  · rw [hout, List.length_take, List.length_rotate, h.2.1]
    omega
  · rw [hout, contents, List.take_take, Nat.min_eq_left hle]
  · show size_sub _ _ = _
    rw [hwp, hrp]
    exact size_sub_size_add_right h.2.2.2.1 h.2.2.1 hle
  · intro h0
    have h0' : size_sub rb.write_pos_ rb.read_pos_ = 0 := h0
    simp [read, h0']

theorem read_returns_min_witness :
    partial_read_test.WF ∧
    (partial_read_test.read 10).2.1 = min 10 partial_read_test.available_read ∧
    (partial_read_test.read 10).2 = (2, [1, 2]) :=
  ⟨by decide, (read_returns_min partial_read_test (by decide) 10).1, by decide⟩

/-- C16: in every state `peek(out, count)` returns the count and the samples that
`read(out, count)` returns from that state, and as a `const` method it leaves the
buffer (`read_pos_`, `write_pos_`, the storage, hence `available_read()`) as it was;
in a state that satisfies the representation invariant these are the
`min(count, available_read())` oldest unread samples. -/
theorem peek_same_as_read (rb : RingBuffer T) (count : Nat) :
    rb.peek count = (rb.read count).2 ∧
    rb.call (Call.peek count) = rb ∧
    (rb.call (Call.peek count)).available_read = rb.available_read ∧
    (rb.WF → (rb.peek count).1 = min count rb.available_read ∧
      (rb.peek count).2 = rb.contents.take (rb.peek count).1) := by
  have e : rb.peek count = (rb.read count).2 := by
    unfold peek read
    simp only
    split_ifs <;> rfl
  refine ⟨e, rfl, rfl, fun h => ?_⟩
  obtain ⟨hn, -, -, -, -, hout⟩ := read_spec h count
  have hle : (rb.read count).2.1 ≤ rb.available_read := hn ▸ Nat.min_le_right _ _
  rw [e]
  exact ⟨hn, by rw [hout, contents, List.take_take, Nat.min_eq_left hle]⟩

/-- The test `RingBuffer.Peek` replayed: the samples are copied and stay available. -/
theorem peek_test_replay :
    peek_test.peek 3 = (3, [10, 20, 30]) ∧
    (peek_test.call (Call.peek 3)).available_read = 3 := by
  decide

/-- C17: in every state reached from construction by `write`, `read`, `peek` and
`reset` calls, after `reset()` `available_read()` is 0 and `available_write()` is
`capacity()`, the capacity given at construction. -/
theorem reset_empties [Inhabited T] (C : Nat) (hC : C < SIZE_MOD) (cs : List (Call T)) :
    ((RingBuffer.new C : RingBuffer T).calls cs).reset.available_read = 0 ∧
    ((RingBuffer.new C : RingBuffer T).calls cs).reset.available_write
      = ((RingBuffer.new C : RingBuffer T).calls cs).reset.capacity ∧
    ((RingBuffer.new C : RingBuffer T).calls cs).reset.capacity = C := by
  have h0 : (RingBuffer.new C : RingBuffer T).WF := WF_new hC
  have hcap : ((RingBuffer.new C : RingBuffer T).calls cs).capacity_ = C := capacity_calls h0 cs
  refine ⟨by simp [reset, available_read, size_sub, SIZE_MOD], ?_, hcap⟩
  show size_sub ((RingBuffer.new C : RingBuffer T).calls cs).capacity_ (size_sub 0 0)
    = ((RingBuffer.new C : RingBuffer T).calls cs).capacity_
  rw [hcap]
  unfold size_sub SIZE_MOD at *
  omega

theorem reset_empties_witness :
    (8 : Nat) < SIZE_MOD ∧
    ((RingBuffer.new 8 : RingBuffer Int).calls reset_test).available_read = 3 ∧
    ((RingBuffer.new 8 : RingBuffer Int).calls reset_test).reset.available_read = 0 ∧
    ((RingBuffer.new 8 : RingBuffer Int).calls reset_test).reset.available_write = 8 :=
  ⟨by decide, by decide, (reset_empties 8 (by decide) reset_test).1, by
    rw [(reset_empties 8 (by decide) reset_test).2.1, (reset_empties 8 (by decide) reset_test).2.2]⟩

end RingBuffer

/-! ### Further claims on the decision policy -/

theorem Edits_refl {α : Type} (a : List α) : Edits a a 0 := by
  induction a with
  | nil => exact Edits.done
  | cons x a ih => exact Edits.keep x ih

theorem Edits_append_left {α : Type} (p : List α) {a b : List α} {n : Nat}
    (h : Edits a b n) :
    Edits (p ++ a) (p ++ b) n := by
  induction p with
  | nil => exact h
  | cons x p ih => exact Edits.keep x ih

theorem lev_eq_zero {a b : List α} (h : lev a b = 0) : a = b := by
  induction a generalizing b with
  | nil =>
    rw [lev_nil_left] at h
    exact (List.length_eq_zero.mp h).symm
  | cons x a iha =>
    cases b with
    | nil =>
      rw [lev_nil_right] at h
      exact List.length_eq_zero.mp h
    | cons y b =>
      rw [lev_cons_cons] at h
      by_cases hxy : x = y
      · rw [if_pos hxy] at h
        have hab : a = b := iha (by omega)
        rw [hxy, hab]
      · rw [if_neg hxy] at h
        omega

theorem lev_self (a : List α) : lev a a = 0 :=
  Nat.le_zero.mp (lev_le_of_edits (Edits_refl a))

theorem lev_le_max (a b : List α) : lev a b ≤ max a.length b.length := by
  induction a generalizing b with
  | nil => rw [lev_nil_left]; exact Nat.le_max_right _ _
  | cons x a iha =>
    cases b with
    | nil => rw [lev_nil_right]; exact Nat.le_max_left _ _
    | cons y b =>
      rw [lev_cons_cons]
      have h := iha b
      simp only [List.length_cons]
      split_ifs <;> omega

theorem max_le_lev_of_disjoint (a b : List α) (h : ∀ c, c ∈ a → c ∉ b) :
    max a.length b.length ≤ lev a b := by
  induction a generalizing b with
  | nil => rw [lev_nil_left]; simp
  | cons x a iha =>
    induction b with
    | nil => rw [lev_nil_right]; simp
    | cons y b ihb =>
      have hxy : x ≠ y := fun e =>
        h x (List.mem_cons_self x a) (e ▸ List.mem_cons_self y b)
      have h1 := iha (y :: b) (fun c hc => h c (List.mem_cons_of_mem x hc))
      have h2 := ihb (fun c hc hcb => h c hc (List.mem_cons_of_mem y hcb))
      have h3 := iha b (fun c hc hcb =>
        h c (List.mem_cons_of_mem x hc) (List.mem_cons_of_mem y hcb))
      rw [lev_cons_cons, if_neg hxy]
      simp only [List.length_cons] at h1 h2 ⊢
      omega

theorem lev_one_edit {a b : List α} (hne : a ≠ b) (h : OneEdit a b) : lev a b = 1 := by
  have hpos : lev a b ≠ 0 := fun h0 => hne (lev_eq_zero h0)
  have hle : lev a b ≤ 1 := by
    cases h with
    | substitute p s x y =>
      exact lev_le_of_edits (Edits_append_left p (Edits.substitute x y (Edits_refl s)))
    | insert p s y =>
      exact lev_le_of_edits (Edits_append_left p (Edits.insert y (Edits_refl s)))
    | delete p s x =>
      exact lev_le_of_edits (Edits_append_left p (Edits.delete x (Edits_refl s)))
  omega

theorem utf8_ascii (a : List Nat) (h : ∀ c ∈ a, c < 128) : utf8 a = a := by
  induction a with
  | nil => rfl
  | cons c a ih =>
    have hc : c < 128 := h c (List.mem_cons_self c a)
    have ha : ∀ c' ∈ a, c' < 128 := fun c' hc' => h c' (List.mem_cons_of_mem c hc')
    simp only [utf8, List.flatMap_cons] at ih ⊢
    rw [ih ha]
    simp [utf8_encode, hc]

/-- C14 (counterexample): the strings are compared `char` by `char`: for "aé"
(UTF-8 bytes 97, 195, 169) and "ae" (bytes 97, 101) the distance is 2 and the longer
length is 3, so the ratio is 2/3 and not 1/2, although one codepoint was replaced. -/
theorem ratio_counts_bytes :
    utf8 text_a_e_acute = [97, 195, 169] ∧ utf8 text_a_e = [97, 101] ∧
    levenshtein (utf8 text_a_e_acute) (utf8 text_a_e) = 2 ∧
    lev text_a_e_acute text_a_e = 1 ∧
    edit_distance_ratio (utf8 text_a_e_acute) (utf8 text_a_e) = 2 / 3 ∧
    edit_distance_ratio (utf8 text_a_e_acute) (utf8 text_a_e) ≠ 1 / 2 := by
  refine ⟨by decide, by decide, by decide, by decide!, by decide!, by decide!⟩

/-- C14 (amended): for all UTF-8 strings the edit distance and the lengths used by
`edit_distance_ratio` are counted in `char` units (bytes) of the encoding; when all
codepoints of both strings are below 128 (one byte each) this is the count in
codepoints, and replacing one such codepoint by another counts as one edit. -/
theorem ratio_over_chars (a b : List Nat) :
    (¬ (utf8 a = [] ∧ utf8 b = []) →
      edit_distance_ratio (utf8 a) (utf8 b)
        = (lev (utf8 a) (utf8 b) : ℚ) / (max (utf8 a).length (utf8 b).length : ℚ)) ∧
    ((∀ c ∈ a, c < 128) → (∀ c ∈ b, c < 128) → ¬ (a = [] ∧ b = []) →
      edit_distance_ratio (utf8 a) (utf8 b)
        = (lev a b : ℚ) / (max a.length b.length : ℚ)) := by
  constructor
  · intro h
    unfold edit_distance_ratio
    rw [if_neg h, levenshtein_eq_lev]
    push_cast
    rfl
  · intro ha hb h
    rw [utf8_ascii a ha, utf8_ascii b hb]
    unfold edit_distance_ratio
    rw [if_neg h, levenshtein_eq_lev]
    push_cast
    rfl

/-- C18: for strings `a != b` where `b` is obtained from `a` by one single-character
substitution, insertion or deletion, the distance is 1 and
`edit_distance_ratio(a, b)` is `1 / max(len(a), len(b))`. -/
theorem ratio_one_edit (a b : CppString) (hne : a ≠ b) (h : OneEdit a b) :
    levenshtein a b = 1 ∧
    edit_distance_ratio a b = 1 / (max a.length b.length : ℚ) := by
  have hl : levenshtein a b = 1 := by rw [levenshtein_eq_lev]; exact lev_one_edit hne h
  refine ⟨hl, ?_⟩
  have hnot : ¬ (a = [] ∧ b = []) := fun ⟨ha, hb⟩ => hne (ha.trans hb.symm)
  unfold edit_distance_ratio
  rw [if_neg hnot, hl]
  push_cast
  rfl

theorem ratio_one_edit_witness :
    text_hello ≠ text_hallo ∧ OneEdit text_hello text_hallo ∧
    edit_distance_ratio text_hello text_hallo = 1 / 5 ∧
    text_hello ≠ text_hell ∧ OneEdit text_hello text_hell ∧
    edit_distance_ratio text_hello text_hell = 1 / 5 :=
  ⟨by decide, OneEdit.substitute [104] [108, 108, 111] 101 97,
    by
      rw [(ratio_one_edit text_hello text_hallo (by decide)
        (OneEdit.substitute [104] [108, 108, 111] 101 97)).2]
      norm_num [text_hello, text_hallo],
    by decide, OneEdit.delete [104, 101, 108, 108] [] 111,
    by
      rw [(ratio_one_edit text_hello text_hell (by decide)
        (OneEdit.delete [104, 101, 108, 108] [] 111)).2]
      norm_num [text_hello, text_hell]⟩

/-- C19: for strings `a` and `b`, not both empty, that have no character in common, the
distance is `max(len(a), len(b))` and `edit_distance_ratio(a, b)` is 1. -/
theorem ratio_disjoint (a b : CppString) (hne : ¬ (a = [] ∧ b = []))
    (hdis : ∀ c, c ∈ a → c ∉ b) :
    levenshtein a b = max a.length b.length ∧ edit_distance_ratio a b = 1 := by
  have hl : levenshtein a b = max a.length b.length := by
    rw [levenshtein_eq_lev]
    exact le_antisymm (lev_le_max a b) (max_le_lev_of_disjoint a b hdis)
  refine ⟨hl, ?_⟩
  have hpos : 0 < max a.length b.length := by
    cases a with
    | nil =>
      cases b with
      | nil => exact absurd ⟨rfl, rfl⟩ hne
      | cons y b => simp
    | cons x a => simp
  unfold edit_distance_ratio
  rw [if_neg hne, hl]
  simp only
  exact div_self (by exact_mod_cast hpos.ne')

theorem ratio_disjoint_witness :
    ¬ (text_abc = [] ∧ text_xyz = []) ∧ (∀ c, c ∈ text_abc → c ∉ text_xyz) ∧
    levenshtein text_abc text_xyz = 3 ∧ edit_distance_ratio text_abc text_xyz = 1 :=
  ⟨by decide, by decide,
    (ratio_disjoint text_abc text_xyz (by decide) (by decide)).1,
    (ratio_disjoint text_abc text_xyz (by decide) (by decide)).2⟩

/-! ### Further claims on the recognition services and the orchestrator -/

namespace TranscriptionOrchestrator

theorem stop_vosk_text (o : TranscriptionOrchestrator) (engine_final : CppString)
    (audio : List AudioSample) :
    (o.on_recording_stop engine_final audio).1.vosk_text_
      = (o.finalize_fast engine_final).vosk_text_ := by
  rcases stop_cases o engine_final audio with ⟨slow₀, -, -, heq⟩ | ⟨-, calls, heq, -, -⟩
  · rw [heq]
  · rw [heq]; rfl

/-- The refinement engine is called exactly when the guard of the refinement block
holds. -/
theorem stop_refine_calls (o : TranscriptionOrchestrator) (engine_final : CppString)
    (audio : List AudioSample) :
    (∀ whisper, o.RefineAttempted audio whisper →
      (o.on_recording_stop engine_final audio).2.refine_calls = [audio]) ∧
    ((∀ whisper, ¬ o.RefineAttempted audio whisper) →
      (o.on_recording_stop engine_final audio).2.refine_calls = []) := by
  constructor
  · rintro whisper ⟨hen, hcfg, hw, hinit, haudio⟩
    have hne : audio.isEmpty = false := by
      cases audio with
      | nil => exact absurd rfl haudio
      | cons x xs => rfl
    have e1 : (o.finalize_fast engine_final).whisper_enabled = true := hen
    have e2 : (o.finalize_fast engine_final).config_ = o.config_ := rfl
    have e3 : (o.finalize_fast engine_final).whisper_ = some whisper := hw
    simp only [on_recording_stop, e1, e2, e3, hcfg, hinit, hne, Bool.and_self, Bool.not_false,
      if_true]
    cases whisper.refine audio with
    | error e => rfl
    | ok slow =>
      simp only
      split_ifs <;> rfl
  · intro hno
    rcases stop_cases o engine_final audio with ⟨slow₀, hs, -, -⟩ | ⟨-, calls, heq, -, hc⟩
    · obtain ⟨hen, hcfg, whisper, hw, hinit, haudio, -⟩ := hs
      exact absurd ⟨hen, hcfg, hw, hinit, haudio⟩ (hno whisper)
    · rw [heq, hc (fun whisper h => hno whisper h)]
      rfl

/-- C11: when refinement is disabled in the configuration, or is not built in, or no
initialised slow recognizer is available, or the full utterance is empty,
`on_recording_stop` does not call `refine`, invokes the result callback with
`(fast_text, fast_text)` and leaves `was_refined()` false. -/
theorem stop_without_refinement (o : TranscriptionOrchestrator) (engine_final : CppString)
    (audio : List AudioSample) (hcb : o.on_refined_ = true)
    (h : o.config_.enable_whisper_refinement = false ∨ o.whisper_enabled = false ∨
      o.whisper_ = none ∨ (∃ whisper, o.whisper_ = some whisper ∧ whisper.is_initialized = false)
      ∨ audio = []) :
    (o.on_recording_stop engine_final audio).2.refine_calls = [] ∧
    (o.on_recording_stop engine_final audio).2.refined_calls
      = [((o.on_recording_stop engine_final audio).1.vosk_result,
          (o.on_recording_stop engine_final audio).1.vosk_result)] ∧
    (o.on_recording_stop engine_final audio).1.was_refined = false := by
  have hno : ∀ whisper, ¬ o.RefineAttempted audio whisper := by
    rintro whisper ⟨hen, hcfg, hw, hinit, haudio⟩
    rcases h with h | h | h | ⟨w, h, h'⟩ | h
    · rw [hcfg] at h; cases h
    · rw [hen] at h; cases h
    · rw [hw] at h; cases h
    · rw [hw] at h; cases h; rw [hinit] at h'; cases h'
    · exact haudio h
  refine ⟨(stop_refine_calls o engine_final audio).2 hno, ?_⟩
  rcases stop_cases o engine_final audio with ⟨slow₀, hs, -, -⟩ | ⟨-, calls, heq, -, -⟩
  · obtain ⟨hen, hcfg, whisper, hw, hinit, haudio, -⟩ := hs
    exact absurd ⟨hen, hcfg, hw, hinit, haudio⟩ (hno whisper)
  · rw [heq]
    have e : (o.finalize_fast engine_final).on_refined_ = true := hcb
    exact ⟨by simp [emit_fast, e, vosk_result], rfl⟩

theorem stop_without_refinement_witness :
    (orchestrator_refining text_ho).on_refined_ = true ∧
    ((orchestrator_refining text_ho).on_recording_stop text_hi []).2.refine_calls = [] ∧
    ((orchestrator_refining text_ho).on_recording_stop text_hi []).2.refined_calls
      = [(text_hi, text_hi)] :=
  ⟨rfl,
    (stop_without_refinement (orchestrator_refining text_ho) text_hi [] rfl
      (Or.inr (Or.inr (Or.inr (Or.inr rfl))))).1,
    by
      have h := (stop_without_refinement (orchestrator_refining text_ho) text_hi [] rfl
        (Or.inr (Or.inr (Or.inr (Or.inr rfl))))).2.1
      rw [h]
      decide!⟩

/-- C12: when the `refine` call of the slow recognizer returns an error,
`on_recording_stop` still completes: it invokes the result callback with
`(fast_text, fast_text)` and leaves `was_refined()` false (and `refine` was called
once when the guard of the refinement block held). -/
theorem stop_refine_error (o : TranscriptionOrchestrator) (engine_final : CppString)
    (audio : List AudioSample) (whisper : WhisperRefinementService) (e : String)
    (hcb : o.on_refined_ = true) (hw : o.whisper_ = some whisper)
    (herr : whisper.refine audio = .error e) :
    (o.on_recording_stop engine_final audio).2.refined_calls
      = [((o.on_recording_stop engine_final audio).1.vosk_result,
          (o.on_recording_stop engine_final audio).1.vosk_result)] ∧
    (o.on_recording_stop engine_final audio).1.was_refined = false ∧
    (o.RefineAttempted audio whisper →
      (o.on_recording_stop engine_final audio).2.refine_calls = [audio]) := by
  refine ⟨?_, ?_, (stop_refine_calls o engine_final audio).1 whisper⟩
  all_goals
    rcases stop_cases o engine_final audio with ⟨slow₀, hs, -, -⟩ | ⟨-, calls, heq, -, -⟩
    · obtain ⟨-, -, whisper', hw', -, -, hok⟩ := hs
      rw [hw] at hw'; cases hw'
      rw [herr] at hok; cases hok
    · rw [heq]
      have e : (o.finalize_fast engine_final).on_refined_ = true := hcb
      first
        | rfl
        | simp [emit_fast, e, vosk_result]

theorem stop_refine_error_witness :
    orchestrator_failing.on_refined_ = true ∧
    orchestrator_failing.RefineAttempted [0]
      { ctx_ := true, whisper_full := fun _ => (1, []) } ∧
    (orchestrator_failing.on_recording_stop text_hi [0]).2.refine_calls = [[0]] ∧
    (orchestrator_failing.on_recording_stop text_hi [0]).1.was_refined = false :=
  ⟨rfl, ⟨rfl, rfl, rfl, rfl, by decide⟩,
    (stop_refine_error orchestrator_failing text_hi [0] _ _ rfl rfl rfl).2.2
      ⟨rfl, rfl, rfl, rfl, by decide⟩,
    (stop_refine_error orchestrator_failing text_hi [0] _ _ rfl rfl rfl).2.1⟩

theorem stream_chunks_vosk (o : TranscriptionOrchestrator) (outs : List EngineOutput) :
    (o.stream_chunks outs).1.vosk_ = (o.vosk_.process_chunks outs).1 := by
  induction outs generalizing o with
  | nil => rfl
  | cons out outs ih =>
    simp only [stream_chunks, VoskRecognitionService.process_chunks]
    rw [ih]
    congr 2
    simp only [stream_chunk]
    split <;> rfl

theorem process_chunk_recognizer (v : VoskRecognitionService) (out : EngineOutput) :
    (v.process_chunk out).1.recognizer_ = v.recognizer_ := by
  unfold VoskRecognitionService.process_chunk
  by_cases hr : (!v.recognizer_) = true
  · rw [if_pos hr]
  · rw [if_neg hr]
    cases out with
    | utterance text => simp only; split_ifs <;> rfl
    | hypothesis text => simp only; split_ifs <;> rfl

theorem process_chunks_recognizer (v : VoskRecognitionService) (outs : List EngineOutput) :
    (v.process_chunks outs).1.recognizer_ = v.recognizer_ := by
  induction outs generalizing v with
  | nil => rfl
  | cons out outs ih =>
    simp only [VoskRecognitionService.process_chunks]
    rw [ih, process_chunk_recognizer]

/-- The stored fast text after a sequence of chunks: the text of the last final
callback, or the text stored before when there was none. -/
theorem stream_chunks_vosk_text (o : TranscriptionOrchestrator) (outs : List EngineOutput) :
    (o.stream_chunks outs).1.vosk_text_
      = (((o.vosk_.process_chunks outs).2.filterMap fun ev =>
          match ev with
          | .final_text t => some t
          | .partial_text _ => none).getLast?).getD o.vosk_text_ := by
  induction outs generalizing o with
  | nil => rfl
  | cons out outs ih =>
    simp only [stream_chunks, VoskRecognitionService.process_chunks]
    rw [ih]
    have hv : (o.stream_chunk out).1.vosk_ = (o.vosk_.process_chunk out).1 := by
      simp only [stream_chunk]
      split <;> rfl
    rw [hv, List.filterMap_append]
    cases hr : (o.vosk_.process_chunk out).2 with
    | none =>
      have ht : (o.stream_chunk out).1.vosk_text_ = o.vosk_text_ := by
        simp only [stream_chunk, hr]
      simp [ht]
    | some ev =>
      cases ev with
      | final_text t =>
        have ht : (o.stream_chunk out).1.vosk_text_ = t := by
          simp only [stream_chunk, hr]
        rw [ht]
        simp only [Option.toList, List.filterMap_cons, List.filterMap_nil, List.singleton_append]
        cases (List.filterMap _ ((o.vosk_.process_chunk out).1.process_chunks outs).2) with
        | nil => rfl
        | cons x xs => simp [List.getLast?_cons_cons, List.getLast?_eq_getLast]
      | partial_text t =>
        have ht : (o.stream_chunk out).1.vosk_text_ = o.vosk_text_ := by
          simp only [stream_chunk, hr]
        simp [ht]

/-- C13: after `on_recording_start`, any sequence of streamed chunks and
`on_recording_stop`, `vosk_result()` is the recognizer's `final_result()` when that
is non-empty, and otherwise the text of the last final callback received since the
start (the empty string when there was none). -/
theorem stop_fast_text (o : TranscriptionOrchestrator) (outs : List EngineOutput)
    (engine_final : CppString) (audio : List AudioSample) :
    ((o.on_recording_start.stream_chunks outs).1.on_recording_stop engine_final
        audio).1.vosk_result
      = if (o.on_recording_start.stream_chunks outs).1.vosk_.final_result engine_final ≠ []
        then (o.on_recording_start.stream_chunks outs).1.vosk_.final_result engine_final
        else last_final (o.on_recording_start.vosk_.process_chunks outs).2 := by
  show (_ : TranscriptionOrchestrator).vosk_text_ = _
  rw [stop_vosk_text]
  simp only [finalize_fast, VoskRecognitionService.final_result,
    VoskRecognitionService.stop_streaming]
  rw [stream_chunks_vosk_text]
  rfl

theorem process_chunk_text_ne_nil (v : VoskRecognitionService) (out : EngineOutput)
    (ev : TextEvent) (h : (v.process_chunk out).2 = some ev) : ev.text ≠ [] := by
  unfold VoskRecognitionService.process_chunk at h
  by_cases hr : (!v.recognizer_) = true
  · rw [if_pos hr] at h; cases h
  · rw [if_neg hr] at h
    cases out with
    | utterance text =>
      simp only at h
      by_cases hc : text ≠ [] ∧ v.on_final_ = true
      · rw [if_pos hc] at h
        cases h
        exact hc.1
      · rw [if_neg hc] at h; cases h
    | hypothesis text =>
      simp only at h
      by_cases hc : text ≠ v.last_partial_ ∧ text ≠ []
      · rw [if_pos hc] at h
        by_cases hp : v.on_partial_ = true
        · rw [if_pos hp] at h
          cases h
          exact hc.2
        · rw [if_neg hp] at h; cases h
      · rw [if_neg hc] at h; cases h

theorem process_chunks_text_ne_nil (v : VoskRecognitionService) (outs : List EngineOutput) :
    ∀ ev ∈ (v.process_chunks outs).2, ev.text ≠ [] := by
  induction outs generalizing v with
  | nil => intro ev hev; cases hev
  | cons out outs ih =>
    intro ev hev
    simp only [VoskRecognitionService.process_chunks, List.mem_append] at hev
    rcases hev with hev | hev
    · cases hr : (v.process_chunk out).2 with
      | none => rw [hr] at hev; cases hev
      | some ev' =>
        rw [hr] at hev
        simp only [Option.toList, List.mem_singleton] at hev
        subst hev
        exact process_chunk_text_ne_nil v out ev hr
    · exact ih _ ev hev

theorem stream_chunk_text_ne_nil (o : TranscriptionOrchestrator) (out : EngineOutput) :
    ∀ text ∈ (o.stream_chunk out).2, text ≠ [] := by
  intro text ht
  unfold stream_chunk at ht
  cases hr : (o.vosk_.process_chunk out).2 with
  | none => simp only [hr] at ht; cases ht
  | some ev =>
    cases ev with
    | final_text t => simp only [hr] at ht; cases ht
    | partial_text t =>
      simp only [hr] at ht
      have hne := process_chunk_text_ne_nil o.vosk_ out _ hr
      split_ifs at ht
      · simp only [List.mem_singleton] at ht
        subst ht
        exact hne
      · cases ht

/-- C20: over every sequence of chunks and recognizer outputs, no callback of
`VoskRecognitionService` (partial or final) is invoked with an empty text, and no
text passed to the subscriber of the orchestrator's partial callback is empty. -/
theorem callbacks_never_empty (v : VoskRecognitionService) (o : TranscriptionOrchestrator)
    (outs : List EngineOutput) :
    (∀ ev ∈ (v.process_chunks outs).2, ev.text ≠ []) ∧
    (∀ text ∈ (o.stream_chunks outs).2, text ≠ []) := by
  refine ⟨process_chunks_text_ne_nil v outs, ?_⟩
  induction outs generalizing o with
  | nil => intro text ht; cases ht
  | cons out outs ih =>
    intro text ht
    simp only [stream_chunks, List.mem_append] at ht
    rcases ht with ht | ht
    · exact stream_chunk_text_ne_nil o out text ht
    · exact ih _ text ht

/-- The recording of `outputs_hi` replayed: the callbacks of the Vosk service, the
texts that reach the partial subscriber, and the fast text after the stop. -/
theorem outputs_hi_replay :
    (orchestrator_ready.on_recording_start.vosk_.process_chunks outputs_hi).2
      = [.partial_text [104], .final_text text_hi, .partial_text text_ho] ∧
    (orchestrator_ready.on_recording_start.stream_chunks outputs_hi).2 = [[104], text_ho] ∧
    ((orchestrator_ready.on_recording_start.stream_chunks outputs_hi).1.on_recording_stop
      [] []).1.vosk_result = text_hi := by
  decide

end TranscriptionOrchestrator
/-! ### Claims on the streaming consumer loop -/

namespace RingBuffer

/-- A first write of at most `capacity` samples to a new buffer: all of it is unread. -/
theorem write_new {capacity : Nat} (hc : capacity < SIZE_MOD) (data : List AudioSample)
    (hd : data.length ≤ capacity) :
    ((RingBuffer.new capacity : RingBuffer AudioSample).write data).1.WF ∧
    ((RingBuffer.new capacity : RingBuffer AudioSample).write data).1.available_read
      = data.length ∧
    ((RingBuffer.new capacity : RingBuffer AudioSample).write data).1.contents = data := by
  have hwf : (RingBuffer.new capacity : RingBuffer AudioSample).WF := WF_new hc
  obtain ⟨hn, -, hrp, hwp, -, -⟩ := write_spec hwf data
  have h00 : size_sub 0 0 = 0 := by decide
  have haw : (RingBuffer.new capacity : RingBuffer AudioSample).available_write = capacity := by
    show size_sub capacity (size_sub 0 0) = capacity
    rw [h00]; exact size_sub_of_le hc (Nat.zero_le _)
  have hn' : ((RingBuffer.new capacity : RingBuffer AudioSample).write data).2 = data.length := by
    rw [hn, haw]; exact Nat.min_eq_left hd
  have hsm : data.length < SIZE_MOD := lt_of_le_of_lt hd hc
  have hcont := contents_write hwf (le_refl _) data
    (by rw [hn']; show 0 + data.length < SIZE_MOD; omega)
  have hc0 : (RingBuffer.new capacity : RingBuffer AudioSample).contents = [] := by
    show List.take (size_sub 0 0) _ = []
    rw [h00, List.take_zero]
  refine ⟨WF_write hwf data, ?_, ?_⟩
  · show size_sub _ _ = _
    rw [hwp, hrp, hn']
    show size_sub (size_add 0 data.length) 0 = data.length
    rw [size_add_of_lt (by omega), Nat.zero_add, size_sub_of_le hsm (Nat.zero_le _), Nat.sub_zero]
  · rw [hcont, hc0, hn', List.nil_append, List.take_length]

end RingBuffer

/-- The sample list `stale_samples` is one chunk long. -/
theorem stale_samples_length : stale_samples.length = 480 := by
  unfold stale_samples
  simp only [List.length_replicate]

namespace VoskRecognitionService

/-- The effect of one `process_chunk` on the de-duplication cache and on the partial
callbacks: either no partial callback is made (and the cache is kept, unless no
partial subscriber is set), or one is made with a text that differs from the cache and
replaces it. -/
theorem process_chunk_partial_step (v : VoskRecognitionService) (out : EngineOutput) :
    (v.process_chunk out).1.on_partial_ = v.on_partial_ ∧
    ((partial_texts (v.process_chunk out).2.toList = [] ∧
        ((v.process_chunk out).1.last_partial_ = v.last_partial_ ∨ v.on_partial_ = false)) ∨
      ∃ text, partial_texts (v.process_chunk out).2.toList = [text] ∧
        text ≠ v.last_partial_ ∧ (v.process_chunk out).1.last_partial_ = text ∧
        v.on_partial_ = true) := by
  by_cases hr : (!v.recognizer_) = true
  · have e : v.process_chunk out = (v, none) := by simp [process_chunk, hr]
    rw [e]
    exact ⟨rfl, Or.inl ⟨rfl, Or.inl rfl⟩⟩
  · cases out with
    | utterance text =>
      by_cases hc : text ≠ [] ∧ v.on_final_ = true
      · have e : v.process_chunk (.utterance text) = (v, some (.final_text text)) := by
          simp only [process_chunk, hr]; simp [hc]
        rw [e]
        exact ⟨rfl, Or.inl ⟨rfl, Or.inl rfl⟩⟩
      · have e : v.process_chunk (.utterance text) = (v, none) := by
          simp only [process_chunk, hr]; simp [hc]
        rw [e]
        exact ⟨rfl, Or.inl ⟨rfl, Or.inl rfl⟩⟩
    | hypothesis text =>
      by_cases hc : text ≠ v.last_partial_ ∧ text ≠ []
      · by_cases hp : v.on_partial_ = true
        · have e : v.process_chunk (.hypothesis text)
              = ({ v with last_partial_ := text }, some (.partial_text text)) := by
            simp only [process_chunk, hr]; simp [hc, hp]
          rw [e]
          exact ⟨rfl, Or.inr ⟨text, rfl, hc.1, rfl, hp⟩⟩
        · have e : v.process_chunk (.hypothesis text)
              = ({ v with last_partial_ := text }, none) := by
            simp only [process_chunk, hr]; simp [hc, hp]
          rw [e]
          exact ⟨rfl, Or.inl ⟨rfl, Or.inr (by simpa using hp)⟩⟩
      · have e : v.process_chunk (.hypothesis text) = (v, none) := by
          simp only [process_chunk, hr]; simp only [hc]; simp
        rw [e]
        exact ⟨rfl, Or.inl ⟨rfl, Or.inl rfl⟩⟩

/-- The partial callbacks of two runs of invocations, one after the other. -/
theorem partial_texts_append (l₁ l₂ : List TextEvent) :
    partial_texts (l₁ ++ l₂) = partial_texts l₁ ++ partial_texts l₂ := by
  simp [partial_texts, List.filterMap_append]

/-- Without a partial subscriber no partial callback is made. -/
theorem process_chunks_no_subscriber (v : VoskRecognitionService) (outs : List EngineOutput)
    (h : v.on_partial_ = false) : partial_texts (v.process_chunks outs).2 = [] := by
  induction outs generalizing v with
  | nil => rfl
  | cons out outs ih =>
    obtain ⟨hkeep, hstep⟩ := process_chunk_partial_step v out
    simp only [process_chunks, partial_texts_append]
    rw [ih _ (hkeep.trans h)]
    rcases hstep with ⟨h0, -⟩ | ⟨text, -, -, -, hon⟩
    · rw [h0]; rfl
    · rw [h] at hon; cases hon

/-- The partial callbacks of a sequence of chunks form a chain of pairwise different
neighbours that starts from the stored `last_partial_`. -/
theorem process_chunks_partial_chain (v : VoskRecognitionService) (outs : List EngineOutput) :
    List.Chain (fun a b => a ≠ b) v.last_partial_ (partial_texts (v.process_chunks outs).2) := by
  induction outs generalizing v with
  | nil => exact List.Chain.nil
  | cons out outs ih =>
    obtain ⟨hkeep, hstep⟩ := process_chunk_partial_step v out
    simp only [process_chunks, partial_texts_append]
    have ih1 := ih (v.process_chunk out).1
    rcases hstep with ⟨h0, hl | hoff⟩ | ⟨text, h1, hne, hl, -⟩
    · rw [h0, List.nil_append, ← hl]; exact ih1
    · rw [h0, List.nil_append, process_chunks_no_subscriber _ _ (hkeep.trans hoff)]
      exact List.Chain.nil
    · rw [h1, List.singleton_append]
      rw [hl] at ih1
      exact List.Chain.cons (Ne.symm hne) ih1

/-- A sequence of chunks invokes at most one callback per chunk. -/
theorem process_chunks_length (v : VoskRecognitionService) (outs : List EngineOutput) :
    (v.process_chunks outs).2.length ≤ outs.length := by
  induction outs generalizing v with
  | nil => simp [process_chunks]
  | cons out outs ih =>
    simp only [process_chunks, List.length_append, List.length_cons]
    have h1 : (v.process_chunk out).2.toList.length ≤ 1 := by
      cases (v.process_chunk out).2 <;> simp [Option.toList]
    have := ih (v.process_chunk out).1
    omega

/-- C21: a partial hypothesis whose text equals the stored `last_partial_` (the text of
the previous partial callback) invokes no callback and changes nothing; for every
sequence of chunks processed from any state, hence between two `reset()` calls, each
partial callback carries a text different from the one before it (and the first one a
text different from the cache at the start, which is empty after `reset()`); and a
sequence of chunks invokes at most one callback per chunk: `process_chunk` returns at
most one event, a final or a partial one. -/
theorem partials_deduplicated (v : VoskRecognitionService) (outs : List EngineOutput) :
    v.process_chunk (.hypothesis v.last_partial_) = (v, none) ∧
    List.Chain (fun a b => a ≠ b) v.last_partial_
      (partial_texts (v.process_chunks outs).2) ∧
    List.Chain' (fun a b => a ≠ b) (partial_texts (v.process_chunks outs).2) ∧
    List.Chain' (fun a b => a ≠ b) (partial_texts (v.reset.process_chunks outs).2) ∧
    v.reset.last_partial_ = [] ∧
    (v.process_chunks outs).2.length ≤ outs.length := by
  have hchain : ∀ w : VoskRecognitionService,
      List.Chain' (fun a b => a ≠ b) (partial_texts (w.process_chunks outs).2) := by
    intro w
    have := process_chunks_partial_chain w outs
    cases h : partial_texts (w.process_chunks outs).2 with
    | nil => exact List.chain'_nil
    | cons a l =>
      rw [h] at this
      exact (List.chain_cons.mp this).2
  refine ⟨?_, process_chunks_partial_chain _ _, hchain v, hchain v.reset, rfl,
    process_chunks_length v outs⟩
  unfold process_chunk
  split_ifs <;> simp

/-- A pass of the streaming loop that finds a whole chunk: the chunk is read and
handed over. -/
theorem streaming_iteration_chunk {rb : RingBuffer AudioSample} (h : rb.WF)
    (v : VoskRecognitionService) (hs : v.streaming_ = true) (hb : v.ring_buffer_ = true)
    (hav : CHUNK_SAMPLES ≤ rb.available_read) :
    v.streaming_iteration rb = ((rb.read CHUNK_SAMPLES).1, some (rb.contents.take CHUNK_SAMPLES)) ∧
    (rb.contents.take CHUNK_SAMPLES).length = CHUNK_SAMPLES ∧
    (rb.read CHUNK_SAMPLES).1.WF ∧
    (rb.read CHUNK_SAMPLES).1.available_read = rb.available_read - CHUNK_SAMPLES ∧
    (rb.read CHUNK_SAMPLES).1.write_pos_ = rb.write_pos_ ∧
    (rb.read CHUNK_SAMPLES).1.buffer_ = rb.buffer_ := by
  obtain ⟨hn, hcap, hbuf, hwp, hrp, hout⟩ := RingBuffer.read_spec h CHUNK_SAMPLES
  have hn' : (rb.read CHUNK_SAMPLES).2.1 = CHUNK_SAMPLES := by rw [hn]; exact Nat.min_eq_left hav
  have hcapav : rb.available_read ≤ rb.capacity_ := h.2.2.2.2
  have hlen : rb.contents.length = rb.available_read := by
    rw [RingBuffer.contents, List.length_take, List.length_rotate, h.2.1]; omega
  have hchunk : (rb.read CHUNK_SAMPLES).2.2 = rb.contents.take CHUNK_SAMPLES := by
    rw [hout, hn', RingBuffer.contents, List.take_take, Nat.min_eq_left hav]
  refine ⟨?_, ?_, RingBuffer.WF_read h _, ?_, hwp, hbuf⟩
  · unfold streaming_iteration
    have h480 : (0 : Nat) < CHUNK_SAMPLES := by decide
    simp only [hs, hb, Bool.not_true, Bool.false_eq_true, if_false, ge_iff_le, hav, if_true, hn',
      gt_iff_lt, h480, hchunk, List.take_take, Nat.min_self]
  · rw [List.length_take, hlen]; omega
  · show size_sub _ _ = _
    rw [hwp, hrp, hn']
    exact size_sub_size_add_right h.2.2.2.1 h.2.2.1 hav

/-- A pass of the streaming loop that finds less than a chunk, or that finds the loop
stopped, touches nothing. -/
theorem streaming_iteration_idle (rb : RingBuffer AudioSample) (v : VoskRecognitionService)
    (h : rb.available_read < CHUNK_SAMPLES ∨ v.streaming_ = false ∨ v.ring_buffer_ = false) :
    v.streaming_iteration rb = (rb, none) := by
  unfold streaming_iteration
  rcases h with h | h | h
  · have : ¬ rb.available_read ≥ CHUNK_SAMPLES := by omega
    simp only [this, if_false]
    split_ifs <;> rfl
  · simp [h]
  · simp only [h]
    split_ifs <;> first | rfl | simp at *

/-- A pass of the streaming loop keeps the representation invariant and hands over a
whole chunk or nothing. -/
theorem streaming_iteration_cases {rb : RingBuffer AudioSample} (h : rb.WF)
    (v : VoskRecognitionService) :
    (v.streaming_iteration rb).1.WF ∧
    ∀ chunk, (v.streaming_iteration rb).2 = some chunk → chunk.length = CHUNK_SAMPLES := by
  by_cases hs : v.streaming_ = true
  · by_cases hb : v.ring_buffer_ = true
    · by_cases hav : CHUNK_SAMPLES ≤ rb.available_read
      · obtain ⟨e, hlen, hwf, -⟩ := streaming_iteration_chunk h v hs hb hav
        rw [e]
        refine ⟨hwf, fun chunk hc => ?_⟩
        cases hc
        exact hlen
      · rw [streaming_iteration_idle rb v (Or.inl (by omega))]
        exact ⟨h, fun chunk hc => by cases hc⟩
    · rw [streaming_iteration_idle rb v (Or.inr (Or.inr (by simpa using hb)))]
      exact ⟨h, fun chunk hc => by cases hc⟩
  · rw [streaming_iteration_idle rb v (Or.inr (Or.inl (by simpa using hs)))]
    exact ⟨h, fun chunk hc => by cases hc⟩

/-- Every chunk handed over in a run of passes is a whole chunk. -/
theorem streaming_iterations_chunks {rb : RingBuffer AudioSample} (h : rb.WF)
    (v : VoskRecognitionService) (k : Nat) :
    ∀ chunk ∈ (v.streaming_iterations rb k).2, chunk.length = CHUNK_SAMPLES := by
  induction k generalizing rb with
  | zero => intro chunk hc; simp [streaming_iterations] at hc
  | succ k ih =>
    intro chunk hc
    obtain ⟨hwf, hone⟩ := streaming_iteration_cases h v
    simp only [streaming_iterations, List.mem_append] at hc
    rcases hc with hc | hc
    · apply hone
      cases hopt : (v.streaming_iteration rb).2 with
      | none => rw [hopt] at hc; simp at hc
      | some c => rw [hopt] at hc; simp at hc; rw [hc]
    · exact ih hwf chunk hc

/-- C22: one pass of the loop of `streaming_thread_func` over a buffer that satisfies
the representation invariant. While the loop runs with a buffer attached and
`available_read() >= 480`, `read` returns 480 and the chunk handed to `process_chunk`
consists of the 480 oldest unread samples, which leave the buffer; with fewer than 480
samples available nothing is read and the buffer is unchanged; in any run of passes
every chunk handed over has exactly 480 samples; and once `stop_streaming()` has
cleared the flag a pass reads and hands over nothing, whatever is left in the
buffer. -/
theorem streaming_loop_chunks (rb : RingBuffer AudioSample) (h : rb.WF)
    (v : VoskRecognitionService) :
    (v.streaming_ = true → v.ring_buffer_ = true → rb.available_read ≥ CHUNK_SAMPLES →
      v.streaming_iteration rb
          = ((rb.read CHUNK_SAMPLES).1, some (rb.contents.take CHUNK_SAMPLES)) ∧
        (rb.read CHUNK_SAMPLES).2.1 = CHUNK_SAMPLES ∧
        (rb.contents.take CHUNK_SAMPLES).length = CHUNK_SAMPLES ∧
        (v.streaming_iteration rb).1.available_read = rb.available_read - CHUNK_SAMPLES) ∧
    (rb.available_read < CHUNK_SAMPLES → v.streaming_iteration rb = (rb, none)) ∧
    (∀ k, ∀ chunk ∈ (v.streaming_iterations rb k).2, chunk.length = CHUNK_SAMPLES) ∧
    v.stop_streaming.streaming_iteration rb = (rb, none) ∧
    CHUNK_SAMPLES = 480 := by
  refine ⟨fun hs hb hav => ?_, fun hlt => streaming_iteration_idle rb v (Or.inl hlt),
    fun k => streaming_iterations_chunks h v k,
    streaming_iteration_idle rb _ (Or.inr (Or.inl rfl)), rfl⟩
  obtain ⟨e, hlen, -, hav', -, -⟩ := streaming_iteration_chunk h v hs hb hav
  refine ⟨e, ?_, hlen, by rw [e]; exact hav'⟩
  rw [(RingBuffer.read_spec h CHUNK_SAMPLES).1]
  exact Nat.min_eq_left hav

theorem streaming_loop_chunks_witness :
    chunk_buffer.WF ∧
    (vosk_ready.start_streaming.streaming_iteration chunk_buffer).2
      = some (chunk_buffer.contents.take CHUNK_SAMPLES) ∧
    vosk_ready.start_streaming.streaming_iteration RingBuffer.peek_test
      = (RingBuffer.peek_test, none) :=
  ⟨(RingBuffer.write_new (by decide) stale_samples (by rw [stale_samples_length]; decide)).1,
    congrArg Prod.snd
      ((streaming_loop_chunks chunk_buffer
          (RingBuffer.write_new (by decide) stale_samples
            (by rw [stale_samples_length]; decide)).1
          vosk_ready.start_streaming).1 rfl rfl
        (by
          show CHUNK_SAMPLES ≤ chunk_buffer.available_read
          unfold chunk_buffer
          rw [(RingBuffer.write_new (by decide) stale_samples
            (by rw [stale_samples_length]; decide)).2.1, stale_samples_length]
          decide)).1,
    (streaming_loop_chunks RingBuffer.peek_test (by decide) vosk_ready.start_streaming).2.1
      (by decide)⟩

end VoskRecognitionService

/-! ### Claims on the accumulator, the history store, `Result` and the hotkey modifiers -/

namespace AudioBuffer

/-- The samples after a sequence of `append` calls. -/
theorem foldl_append_samples (b : AudioBuffer) (chunks : List (List AudioSample)) :
    (chunks.foldl AudioBuffer.append b).samples_ = b.samples_ ++ chunks.flatten := by
  induction chunks generalizing b with
  | nil => simp
  | cons c cs ih =>
    rw [List.foldl_cons, ih, List.flatten_cons]
    simp [AudioBuffer.append, List.append_assoc]

/-- C23: after any sequence of `append` calls made on a buffer that has just been
cleared, or that has just been constructed, `get_samples()` is the concatenation of the
appended chunks in call order and `size()` is the sum of their counts; after `clear()`
the buffer is empty, with `size() == 0`. -/
theorem appends_concatenate (b : AudioBuffer) (reserve_samples : Nat)
    (chunks : List (List AudioSample)) :
    (chunks.foldl AudioBuffer.append b.clear).get_samples = chunks.flatten ∧
    (chunks.foldl AudioBuffer.append b.clear).size = (chunks.map List.length).sum ∧
    (chunks.foldl AudioBuffer.append (AudioBuffer.new reserve_samples)).get_samples
      = chunks.flatten ∧
    (chunks.foldl AudioBuffer.append (AudioBuffer.new reserve_samples)).size
      = (chunks.map List.length).sum ∧
    b.clear.get_samples = [] ∧ b.clear.size = 0 ∧ b.clear.empty = true := by
  have h1 := foldl_append_samples b.clear chunks
  have h2 := foldl_append_samples (AudioBuffer.new reserve_samples) chunks
  simp only [clear, AudioBuffer.new, List.nil_append] at h1 h2
  refine ⟨h1, ?_, h2, ?_, rfl, rfl, rfl⟩
  · show (List.foldl AudioBuffer.append b.clear chunks).samples_.length = _
    rw [show b.clear = { samples_ := [] } from rfl, h1, List.length_flatten]
  · show (List.foldl AudioBuffer.append (AudioBuffer.new reserve_samples) chunks).samples_.length = _
    rw [show AudioBuffer.new reserve_samples = { samples_ := [] } from rfl, h2, List.length_flatten]

end AudioBuffer

/-- A size below `2 ^ 31` is kept by `static_cast<int>`. -/
theorem static_cast_int_of_lt {n : Nat} (h : n < 2 ^ 31) : static_cast_int n = (n : Int) := by
  unfold static_cast_int
  have h1 : n % 2 ^ 32 = n := Nat.mod_eq_of_lt (by omega)
  rw [h1, if_pos h]

namespace TranscriptionStore

/-- When the guard of the eviction is false the new entry is only added. -/
theorem append_no_evict (s : TranscriptionStore) (now : String) (text : CppString)
    (source : TranscriptionSource)
    (h : ¬ (s.max_entries_ > 0 ∧ static_cast_int (s.entries_.length + 1) > s.max_entries_)) :
    (s.append now text source).entries_
      = s.entries_ ++ [{ timestamp := now, text := text, source := source }] := by
  have hlen : (s.entries_ ++ [({ timestamp := now, text := text, source := source } :
      TranscriptionEntry)]).length = s.entries_.length + 1 := by simp
  unfold append
  simp only [hlen]
  rw [if_neg h]

/-- The store `store_at_int_max` holds `INT_MAX` entries. -/
theorem store_at_int_max_length : store_at_int_max.entries_.length = 2 ^ 31 - 1 := by
  unfold store_at_int_max
  simp only [List.length_replicate]

/-- C24, the failing input: a store with the cap 1 that holds `INT_MAX = 2 ^ 31 - 1`
entries. After `push_back` the size is `2 ^ 31`, which `static_cast<int>` turns into
`-2 ^ 31`; the guard `static_cast<int>(entries_.size()) > max_entries_` of the block
commented `Enforce max entries` is false, nothing is evicted and the store holds
`2 ^ 31` entries, where the cap asks for `min(k + 1, N) = 1`. -/
theorem append_at_int_max :
    0 < store_at_int_max.max_entries_ ∧
    store_at_int_max.entries_.length = 2 ^ 31 - 1 ∧
    (store_at_int_max.append "" text_hi TranscriptionSource.VOSK).entries_.length = 2 ^ 31 ∧
    (store_at_int_max.append "" text_hi TranscriptionSource.VOSK).entries_.length
      ≠ min (store_at_int_max.entries_.length + 1) store_at_int_max.max_entries_.toNat := by
  have hcast : static_cast_int (2 ^ 31 - 1 + 1) = -2 ^ 31 := by decide
  have hmax : store_at_int_max.max_entries_ = 1 := by decide
  have e := append_no_evict store_at_int_max "" text_hi TranscriptionSource.VOSK (by
    rw [store_at_int_max_length, hcast, hmax]
    decide)
  have hlen :
      (store_at_int_max.append "" text_hi TranscriptionSource.VOSK).entries_.length = 2 ^ 31 := by
    rw [e, List.length_append, store_at_int_max_length, List.length_singleton]; norm_num
  refine ⟨by decide, store_at_int_max_length, hlen, ?_⟩
  rw [hlen, store_at_int_max_length, hmax]
  decide

/-- Where the new size fits the `int` it is cast to (`k + 1 < 2 ^ 31`) the cap is
enforced: for every cap `N > 0` and every store content of size `k`, after `append` the
store holds `min(k + 1, N)` entries: the new entry is last, and before it come the most
recent previous entries in their original order (the oldest are dropped); the cap is
unchanged. -/
theorem append_keeps_most_recent (s : TranscriptionStore) (now : String) (text : CppString)
    (source : TranscriptionSource) (hN : 0 < s.max_entries_)
    (hk : s.entries_.length + 1 < 2 ^ 31) :
    (s.append now text source).entries_
      = s.entries_.drop (s.entries_.length + 1 - min (s.entries_.length + 1) s.max_entries_.toNat)
          ++ [{ timestamp := now, text := text, source := source }] ∧
    (s.append now text source).entries_.length
      = min (s.entries_.length + 1) s.max_entries_.toNat ∧
    (s.append now text source).max_entries_ = s.max_entries_ := by
  have hlen : (s.entries_ ++ [({ timestamp := now, text := text, source := source } :
      TranscriptionEntry)]).length = s.entries_.length + 1 := by simp
  have hcast := @static_cast_int_of_lt (s.entries_.length + 1) hk
  unfold append
  simp only [hlen, hcast]
  by_cases hgt : ((s.entries_.length + 1 : Nat) : Int) > s.max_entries_
  · have hmin : min (s.entries_.length + 1) s.max_entries_.toNat = s.max_entries_.toNat := by
      apply Nat.min_eq_right; omega
    have hd : (((s.entries_.length + 1 : Nat) : Int) - s.max_entries_).toNat
        = s.entries_.length + 1 - s.max_entries_.toNat := by omega
    have hle : s.entries_.length + 1 - s.max_entries_.toNat ≤ s.entries_.length := by omega
    simp only [gt_iff_lt, hN, hgt, and_self, if_true, hmin, hd]
    refine ⟨List.drop_append_of_le_length hle, ?_, trivial⟩
    rw [List.length_drop, hlen]; omega
  · have hmin : min (s.entries_.length + 1) s.max_entries_.toNat = s.entries_.length + 1 := by
      apply Nat.min_eq_left; omega
    simp only [gt_iff_lt, hgt, and_false, if_false, hmin, Nat.sub_self, List.drop_zero, hlen,
      and_self]

/-- The test `MaxEntries` replayed: the fourth `append` with the cap 3 drops "one". -/
theorem append_keeps_most_recent_witness :
    (0 : Int) < store_max_entries_test.max_entries_ ∧
    (store_max_entries_test.append "" [102, 111, 117, 114] TranscriptionSource.VOSK).entries_.length
      = 3 ∧
    ((store_max_entries_test.append "" [102, 111, 117, 114] TranscriptionSource.VOSK).entries_.map
      fun e => e.text) = [[116, 119, 111], [116, 104, 114, 101, 101], [102, 111, 117, 114]] :=
  ⟨by decide,
    (append_keeps_most_recent store_max_entries_test "" [102, 111, 117, 114]
      TranscriptionSource.VOSK (by decide) (by decide)).2.1.trans (by decide),
    by decide⟩

end TranscriptionStore

/-- C25: for every `Result<T, E>` exactly one of `is_ok()` and `is_err()` holds; on an
ok result `value()` and `value_or(d)` return the stored value and `error()` throws; on
an error result `error()` returns the stored error, `value_or(d)` returns `d` and
`value()` throws; `ok(v)` is ok and stores `v`, `err(e)` is an error and stores `e`;
and the same for `is_ok()`, `is_err()` and `error()` of `Result<void, E>`. A thrown
`std::runtime_error` is the `.error` answer. -/
theorem result_contract {T E : Type} [Inhabited T] [Inhabited E] (v d : T) (e : E)
    (r : Result T E) :
    (r.is_ok = true ∧ r.is_err = false ∨ r.is_ok = false ∧ r.is_err = true) ∧
    (r.is_ok = true → r.value = .ok r.value_ ∧ r.value_or d = r.value_ ∧
      r.error = .error "Result::error() called on ok value") ∧
    (r.is_err = true → r.error = .ok r.error_ ∧ r.value_or d = d ∧
      r.value = .error "Result::value() called on error") ∧
    ((Result.ok v : Result T E).is_ok = true ∧ (Result.ok v : Result T E).value = .ok v ∧
      (Result.ok v : Result T E).value_or d = v ∧
      (Result.ok v : Result T E).error = .error "Result::error() called on ok value") ∧
    ((Result.err e : Result T E).is_err = true ∧ (Result.err e : Result T E).error = .ok e ∧
      (Result.err e : Result T E).value_or d = d ∧
      (Result.err e : Result T E).value = .error "Result::value() called on error") ∧
    ((ResultVoid.ok : ResultVoid E).is_ok = true ∧ (ResultVoid.ok : ResultVoid E).is_err = false ∧
      (ResultVoid.ok : ResultVoid E).error = .error "Result::error() called on ok value") ∧
    ((ResultVoid.err e).is_ok = false ∧ (ResultVoid.err e).is_err = true ∧
      (ResultVoid.err e).error = .ok e) := by
  refine ⟨?_, ?_, ?_, ⟨rfl, rfl, rfl, rfl⟩, ⟨rfl, rfl, rfl, rfl⟩, ⟨rfl, rfl, rfl⟩, ⟨rfl, rfl, rfl⟩⟩
  · cases h : r.is_ok_ <;> simp [Result.is_ok, Result.is_err, h]
  · intro h
    have h' : r.is_ok_ = true := h
    simp [Result.value, Result.value_or, Result.error, h']
  · intro h
    have h' : r.is_ok_ = false := by simpa [Result.is_err] using h
    simp [Result.value, Result.value_or, Result.error, h']

namespace XcbHotkeyService

/-- One step of the loop of `check_modifiers`. -/
theorem check_loop_cons (state : ModifierState) (name : String) (rest : List String) :
    check_loop state (name :: rest)
      = if pressed state name = true then check_loop state rest else some false := by
  simp only [check_loop, pressed]
  split_ifs <;> simp_all

/-- The loop of `check_modifiers` runs to its end exactly when every listed name is
pressed; otherwise it returns `false`. -/
theorem check_loop_spec (state : ModifierState) (mods : List String) :
    (check_loop state mods = none ↔ ∀ name ∈ mods, pressed state name = true) ∧
    (check_loop state mods = none ∨ check_loop state mods = some false) := by
  induction mods with
  | nil => simp [check_loop]
  | cons name rest ih =>
    obtain ⟨ih1, ih2⟩ := ih
    rw [check_loop_cons]
    simp only [List.mem_cons, forall_eq_or_imp]
    by_cases hp : pressed state name = true
    · simp only [hp, if_true, true_and]
      exact ⟨ih1, ih2⟩
    · simp only [hp, if_false, false_and]
      exact ⟨by simp, Or.inr rfl⟩

/-- The answer of `check_modifiers` after `set_modifiers(mods)`. -/
theorem check_modifiers_eq (s : XcbHotkeyService) (mods : List String) (state : ModifierState) :
    (s.set_modifiers mods).check_modifiers state = true
      ↔ mods ≠ [] ∧ ∀ name ∈ mods, pressed state name = true := by
  obtain ⟨h1, h2⟩ := check_loop_spec state mods
  unfold check_modifiers set_modifiers
  simp only
  rcases h2 with h | h
  · rw [h]
    simp only [Bool.not_eq_true', List.isEmpty_eq_false, ne_eq]
    constructor
    · intro hne; exact ⟨by cases mods <;> simp_all, h1.mp h⟩
    · intro ⟨hne, _⟩; cases mods <;> simp_all
  · rw [h]
    simp only [Bool.false_eq_true, false_iff, not_and]
    intro _ hall
    rw [h1.mpr hall] at h
    cases h

/-- C26: after `set_modifiers(mods)`, for every list of names and every modifier state,
`check_modifiers` returns true if and only if the list is non-empty and every listed
modifier is pressed (`ctrl`/`control`, `alt`, `super`/`meta`, `shift`; a name outside
these asks for nothing); two states that agree on the listed modifiers get the same
answer, so modifiers that are pressed but not listed do not matter; and the empty list
never triggers. -/
theorem check_modifiers_iff (s : XcbHotkeyService) (mods : List String) (state : ModifierState) :
    ((s.set_modifiers mods).check_modifiers state = true
      ↔ mods ≠ [] ∧ ∀ name ∈ mods,
          ((name = "ctrl" ∨ name = "control") → state.ctrl = true) ∧
          (name = "alt" → state.alt = true) ∧
          ((name = "super" ∨ name = "meta") → state.super = true) ∧
          (name = "shift" → state.shift = true)) ∧
    (∀ other : ModifierState, (∀ name ∈ mods, pressed other name = pressed state name) →
      (s.set_modifiers mods).check_modifiers other
        = (s.set_modifiers mods).check_modifiers state) ∧
    (s.set_modifiers []).check_modifiers state = false := by
  refine ⟨?_, ?_, ?_⟩
  · rw [check_modifiers_eq]
    apply and_congr_right
    intro _
    apply forall₂_congr
    intro name _
    unfold pressed
    by_cases h1 : name = "ctrl" ∨ name = "control"
    · have h2 : name ≠ "alt" := by rcases h1 with h | h <;> rw [h] <;> decide
      have h3 : ¬ (name = "super" ∨ name = "meta") := by
        rcases h1 with h | h <;> rw [h] <;> decide
      have h4 : name ≠ "shift" := by rcases h1 with h | h <;> rw [h] <;> decide
      simp [h1, h2, h3, h4]
    · by_cases h2 : name = "alt"
      · have h3 : ¬ (name = "super" ∨ name = "meta") := by rw [h2]; decide
        have h4 : name ≠ "shift" := by rw [h2]; decide
        simp [h1, h2, h3, h4]
      · by_cases h3 : name = "super" ∨ name = "meta"
        · have h4 : name ≠ "shift" := by rcases h3 with h | h <;> rw [h] <;> decide
          simp [h1, h2, h3, h4]
        · by_cases h4 : name = "shift"
          · simp [h1, h2, h3, h4]
          · simp [h1, h2, h3, h4]
  · intro other hsame
    have e1 := check_modifiers_eq s mods other
    have e2 := check_modifiers_eq s mods state
    have : (∀ name ∈ mods, pressed other name = true) ↔ (∀ name ∈ mods, pressed state name = true) :=
      forall₂_congr fun name hn => by rw [hsame name hn]
    rw [this] at e1
    rw [Bool.eq_iff_iff, e1, e2]
  · rfl

/-- The test `XcbHotkeyService.ModifierStateCheck` replayed. -/
theorem hotkey_test_replay :
    hotkey_test.check_modifiers { ctrl := true, super := true, alt := true } = true ∧
    hotkey_test.check_modifiers { super := true, alt := true } = false ∧
    hotkey_test.check_modifiers { ctrl := true, alt := true } = false ∧
    hotkey_test.check_modifiers { ctrl := true, super := true } = false ∧
    hotkey_test.check_modifiers {} = false ∧
    hotkey_test.check_modifiers { ctrl := true, super := true, alt := true, shift := true }
      = true := by
  decide

end XcbHotkeyService

/-! ### Claims on the start of a recording, the recorded source and the ratio -/

namespace Application

/-- What `on_refined_text` appends to the history: with different arguments and a
non-empty second one, the second argument with the source `WHISPER`; with equal
arguments, the text with the source `VOSK`, or nothing when it is empty. -/
theorem on_refined_text_store (app : Application) (now : String) (fast auth : CppString) :
    (fast ≠ auth → auth ≠ [] →
      (app.on_refined_text now fast auth).transcription_store_
        = app.transcription_store_.append now auth TranscriptionSource.WHISPER) ∧
    (fast = auth →
      (app.on_refined_text now fast auth).transcription_store_
        = if fast = [] then app.transcription_store_
          else app.transcription_store_.append now fast TranscriptionSource.VOSK) := by
  constructor
  · intro hne hauth
    simp [on_refined_text, hne, hauth]
  · intro heq
    subst heq
    by_cases h : fast = []
    · simp [on_refined_text, h]
    · simp [on_refined_text, h]

end Application

/-- The ratio of a string and itself is 0. -/
theorem edit_distance_ratio_self (a : CppString) : edit_distance_ratio a a = 0 := by
  unfold edit_distance_ratio
  split_ifs
  · rfl
  · simp only [levenshtein_eq_lev, lev_self, Nat.cast_zero, zero_div]

namespace TranscriptionOrchestrator

/-- C29: with a positive `refinement_threshold`, for every invocation of the result
callback by `on_recording_stop`, `was_refined()` is true if and only if the two
arguments differ, which is the test by which `on_refined_text` chooses the source
`WHISPER`. When the refinement is applied the second argument is non-empty and differs
from the first, and `on_refined_text` appends it to the history with the source
`WHISPER`; when it is not applied the two arguments are equal and the handler appends
the text with the source `VOSK` (nothing when the text is empty). -/
theorem whisper_source_iff_refined (o : TranscriptionOrchestrator) (engine_final : CppString)
    (audio : List AudioSample) (h : 0 < o.config_.refinement_threshold) :
    ∀ call ∈ (o.on_recording_stop engine_final audio).2.refined_calls,
      ((o.on_recording_stop engine_final audio).1.was_refined = true ↔ call.1 ≠ call.2) ∧
      ∀ (app : Application) (now : String),
        ((o.on_recording_stop engine_final audio).1.was_refined = true →
          call.2 ≠ [] ∧
          (app.on_refined_text now call.1 call.2).transcription_store_
            = app.transcription_store_.append now call.2 TranscriptionSource.WHISPER) ∧
        ((o.on_recording_stop engine_final audio).1.was_refined = false →
          call.1 = call.2 ∧
          (app.on_refined_text now call.1 call.2).transcription_store_
            = if call.1 = [] then app.transcription_store_
              else app.transcription_store_.append now call.1 TranscriptionSource.VOSK) := by
  intro call hcall
  rcases stop_cases o engine_final audio with ⟨slow, -, ⟨hratio, hslow⟩, e⟩ | ⟨-, calls, e, -, -⟩
  · rw [e] at hcall ⊢
    have hne : (o.finalize_fast engine_final).vosk_text_ ≠ slow := by
      intro heq
      rw [heq, edit_distance_ratio_self] at hratio
      exact absurd (lt_of_lt_of_le h hratio) (lt_irrefl _)
    have hc : call = ((o.finalize_fast engine_final).vosk_text_, slow) := by
      by_cases hon : o.on_refined_ = true
      · simpa [hon] using hcall
      · simp [hon] at hcall
    subst hc
    refine ⟨⟨fun _ => hne, fun _ => rfl⟩, fun app now => ⟨fun _ => ⟨hslow, ?_⟩, fun hf => ?_⟩⟩
    · exact (Application.on_refined_text_store app now _ _).1 hne hslow
    · exact absurd hf (by simp [was_refined])
  · rw [e] at hcall ⊢
    have hc : call = ((o.finalize_fast engine_final).vosk_text_,
        (o.finalize_fast engine_final).vosk_text_) := by
      have hon' : (o.finalize_fast engine_final).on_refined_ = o.on_refined_ := rfl
      by_cases hon : o.on_refined_ = true
      · simpa [emit_fast, hon', hon] using hcall
      · simp [emit_fast, hon', hon] at hcall
    subst hc
    refine ⟨⟨fun hr => ?_, fun hne => absurd rfl hne⟩,
      fun app now => ⟨fun hr => ?_, fun _ => ⟨rfl, ?_⟩⟩⟩
    · exact absurd hr (by simp [was_refined, emit_fast])
    · exact absurd hr (by simp [was_refined, emit_fast])
    · exact (Application.on_refined_text_store app now _ _).2 rfl

theorem whisper_source_iff_refined_witness :
    (0 : ℚ) < (orchestrator_refining text_ho).config_.refinement_threshold ∧
    ((orchestrator_refining text_ho).on_recording_stop text_hi [1, 2, 3]).2.refined_calls
      = [(text_hi, text_ho)] ∧
    (((orchestrator_refining text_ho).on_recording_stop text_hi [1, 2, 3]).1.was_refined = true
      ↔ text_hi ≠ text_ho) :=
  ⟨by decide!, by decide!,
    (whisper_source_iff_refined (orchestrator_refining text_ho) text_hi [1, 2, 3] (by decide!)
      (text_hi, text_ho) (by decide!)).1⟩

end TranscriptionOrchestrator

/-- C30: for all strings the ratio lies between 0 and 1: the Levenshtein distance is
at most the larger length, and the divisor is not zero where the division is made
(the two strings are not both empty); and the ratio is 0 exactly when the two strings
are equal. The `double` division is exact division of rationals. -/
theorem ratio_bounds (a b : CppString) :
    0 ≤ edit_distance_ratio a b ∧ edit_distance_ratio a b ≤ 1 ∧
    levenshtein a b ≤ max a.length b.length ∧
    (¬ (a = [] ∧ b = []) → ((max a.length b.length : Nat) : ℚ) ≠ 0) ∧
    (edit_distance_ratio a b = 0 ↔ a = b) := by
  have hle : levenshtein a b ≤ max a.length b.length := by
    rw [levenshtein_eq_lev]; exact lev_le_max a b
  have hpos : ¬ (a = [] ∧ b = []) → 0 < max a.length b.length := by
    intro h
    rcases a with _ | ⟨x, a⟩
    · rcases b with _ | ⟨y, b⟩
      · exact absurd ⟨rfl, rfl⟩ h
      · simp
    · simp
  refine ⟨?_, ?_, hle, fun h => by exact_mod_cast (hpos h).ne', ?_⟩
  · unfold edit_distance_ratio
    split_ifs
    · exact le_refl 0
    · positivity
  · unfold edit_distance_ratio
    split_ifs with h
    · exact zero_le_one
    · have hp : (0 : ℚ) < ((max a.length b.length : Nat) : ℚ) := by exact_mod_cast hpos h
      show (levenshtein a b : ℚ) / ((max a.length b.length : Nat) : ℚ) ≤ 1
      rw [div_le_one hp]
      exact_mod_cast hle
  · unfold edit_distance_ratio
    split_ifs with h
    · simp [h.1, h.2]
    · have hp : ((max a.length b.length : Nat) : ℚ) ≠ 0 := by exact_mod_cast (hpos h).ne'
      show (levenshtein a b : ℚ) / ((max a.length b.length : Nat) : ℚ) = 0 ↔ a = b
      rw [div_eq_zero_iff]
      constructor
      · rintro (h0 | h0)
        · have h0' : levenshtein a b = 0 := by exact_mod_cast h0
          rw [levenshtein_eq_lev] at h0'
          exact lev_eq_zero h0'
        · exact absurd h0 hp
      · intro hab
        left
        rw [hab, levenshtein_eq_lev, lev_self]
        rfl

end verbal
